import Mathlib

/-!
Verification of the index layer of the `cacache` content-addressable cache
(file `src/index.rs`).  The development shallowly embeds the source: bucket
files are modelled as an association list from path strings to file
contents, machine integers (`u128`, `usize`, `u32`) are `Nat` with explicit
`% 2 ^ w` where overflow matters, and the external collaborators
(`serde_json`, `sha1`/`sha2`, `hex`, `ssri`) are implemented concretely so
that every definition is executable.
-/

set_option maxRecDepth 100000

namespace Cacache

/-! ## Basic list and character utilities -/

/-- Splitting a character list at every occurrence of `c`, mirroring Rust's
`str::split`: the result always has one more chunk than there are
occurrences of `c`, so the empty input yields `[[]]`. -/
def splitOnChar (c : Char) : List Char → List (List Char)
  | [] => [[]]
  | x :: xs =>
    match splitOnChar c xs with
    | [] => [[]]
    | h :: t => if x = c then [] :: h :: t else (x :: h) :: t

/-- The modulus of 32-bit words. -/
def M32 : Nat := 4294967296

/-- Big-endian byte rendering of `x` on exactly `k` bytes. -/
def toBytesBE : Nat → Nat → List Nat
  | 0, _ => []
  | k + 1, x => toBytesBE k (x / 256) ++ [x % 256]

/-- 32-bit right rotation (inputs are kept below `M32` by construction). -/
def rotr (n x : Nat) : Nat := ((x >>> n) ||| (x <<< (32 - n))) % M32

/-- 32-bit left rotation. -/
def rotl (n x : Nat) : Nat := ((x <<< n) ||| (x >>> (32 - n))) % M32

/-- Big-endian 32-bit word from four bytes. -/
def word32 (a b c d : Nat) : Nat := ((a * 256 + b) * 256 + c) * 256 + d

/-- Group a byte list into 16 big-endian words (64 bytes). -/
def bytesToWords : List Nat → List Nat
  | a :: b :: c :: d :: rest => word32 a b c d :: bytesToWords rest
  | _ => []

/-- Accumulate bytes into blocks of fixed size, counting down `k` bytes
remaining in the current (reversed) block `acc`. -/
def groupBytes : List Nat → List Nat → Nat → List (List Nat)
  | [], acc, _ => if acc.isEmpty then [] else [acc.reverse]
  | x :: xs, acc, k =>
    if k ≤ 1 then (x :: acc).reverse :: groupBytes xs [] 64
    else groupBytes xs (x :: acc) (k - 1)

/-- Split a byte list into 64-byte blocks. -/
def chunks64 (l : List Nat) : List (List Nat) := groupBytes l [] 64

/-- SHA padding: message, a `0x80` byte, zeros, then the bit length on
eight big-endian bytes, reaching a multiple of 64 bytes. -/
def shaPad (msg : List Nat) : List Nat :=
  msg ++ 0x80 :: List.replicate ((64 - ((msg.length + 9) % 64)) % 64) 0
      ++ toBytesBE 8 ((8 * msg.length) % (2 ^ 64))

/-! ## SHA-256 (the `hash_entry` digest of `src/index.rs`) -/

def sha256K : List Nat :=
  [1116352408, 1899447441, 3049323471, 3921009573, 961987163, 1508970993,
   2453635748, 2870763221, 3624381080, 310598401, 607225278, 1426881987,
   1925078388, 2162078206, 2614888103, 3248222580, 3835390401, 4022224774,
   264347078, 604807628, 770255983, 1249150122, 1555081692, 1996064986,
   2554220882, 2821834349, 2952996808, 3210313671, 3336571891, 3584528711,
   113926993, 338241895, 666307205, 773529912, 1294757372, 1396182291,
   1695183700, 1986661051, 2177026350, 2456956037, 2730485921, 2820302411,
   3259730800, 3345764771, 3516065817, 3600352804, 4094571909, 275423344,
   430227734, 506948616, 659060556, 883997877, 958139571, 1322822218,
   1537002063, 1747873779, 1955562222, 2024104815, 2227730452, 2361852424,
   2428436474, 2756734187, 3204031479, 3329325298]

def smallSigma0 (x : Nat) : Nat := (rotr 7 x) ^^^ (rotr 18 x) ^^^ (x >>> 3)

def smallSigma1 (x : Nat) : Nat := (rotr 17 x) ^^^ (rotr 19 x) ^^^ (x >>> 10)

def bigSigma0 (x : Nat) : Nat := (rotr 2 x) ^^^ (rotr 13 x) ^^^ (rotr 22 x)

def bigSigma1 (x : Nat) : Nat := (rotr 6 x) ^^^ (rotr 11 x) ^^^ (rotr 25 x)

def chF (x y z : Nat) : Nat := (x &&& y) ^^^ ((x ^^^ (M32 - 1)) &&& z)

def majF (x y z : Nat) : Nat := (x &&& y) ^^^ (x &&& z) ^^^ (y &&& z)

/-- Eight-word hash state. -/
structure Sha256State where
  a : Nat
  b : Nat
  c : Nat
  d : Nat
  e : Nat
  f : Nat
  g : Nat
  h : Nat

def sha256Init : Sha256State :=
  ⟨0x6a09e667, 0xbb67ae85, 0x3c6ef372, 0xa54ff53a,
   0x510e527f, 0x9b05688c, 0x1f83d9ab, 0x5be0cd19⟩

/-- Extend the (reversed) message schedule by `k` further words. -/
def sha256ExtendW (rev : List Nat) : Nat → List Nat
  | 0 => rev
  | k + 1 =>
    sha256ExtendW
      (((smallSigma1 (rev.getD 1 0) + rev.getD 6 0
          + smallSigma0 (rev.getD 14 0) + rev.getD 15 0) % M32) :: rev) k

def sha256Round (st : Sha256State) (kw : Nat × Nat) : Sha256State :=
  let t1 := (st.h + bigSigma1 st.e + chF st.e st.f st.g + kw.1 + kw.2) % M32
  let t2 := (bigSigma0 st.a + majF st.a st.b st.c) % M32
  ⟨(t1 + t2) % M32, st.a, st.b, st.c, (st.d + t1) % M32, st.e, st.f, st.g⟩

def sha256Block (st : Sha256State) (block : List Nat) : Sha256State :=
  let ws := (sha256ExtendW (bytesToWords block).reverse 48).reverse
  let r := (sha256K.zip ws).foldl sha256Round st
  ⟨(st.a + r.a) % M32, (st.b + r.b) % M32, (st.c + r.c) % M32,
   (st.d + r.d) % M32, (st.e + r.e) % M32, (st.f + r.f) % M32,
   (st.g + r.g) % M32, (st.h + r.h) % M32⟩

/-- SHA-256 digest (32 bytes) of a byte list. -/
def sha256Bytes (msg : List Nat) : List Nat :=
  let st := (chunks64 (shaPad msg)).foldl sha256Block sha256Init
  toBytesBE 4 st.a ++ toBytesBE 4 st.b ++ toBytesBE 4 st.c ++ toBytesBE 4 st.d
    ++ toBytesBE 4 st.e ++ toBytesBE 4 st.f ++ toBytesBE 4 st.g
    ++ toBytesBE 4 st.h

/-! ## SHA-1 (the `hash_key` digest of `src/index.rs`) -/

structure Sha1State where
  a : Nat
  b : Nat
  c : Nat
  d : Nat
  e : Nat

def sha1Init : Sha1State :=
  ⟨0x67452301, 0xEFCDAB89, 0x98BADCFE, 0x10325476, 0xC3D2E1F0⟩

def sha1F (t b c d : Nat) : Nat :=
  if t < 20 then (b &&& c) ||| ((b ^^^ (M32 - 1)) &&& d)
  else if t < 40 then b ^^^ c ^^^ d
  else if t < 60 then (b &&& c) ||| (b &&& d) ||| (c &&& d)
  else b ^^^ c ^^^ d

def sha1K (t : Nat) : Nat :=
  if t < 20 then 0x5A827999
  else if t < 40 then 0x6ED9EBA1
  else if t < 60 then 0x8F1BBCDC
  else 0xCA62C1D6

def sha1ExtendW (rev : List Nat) : Nat → List Nat
  | 0 => rev
  | k + 1 =>
    sha1ExtendW
      ((rotl 1 ((rev.getD 2 0) ^^^ (rev.getD 7 0) ^^^ (rev.getD 13 0)
          ^^^ (rev.getD 15 0))) :: rev) k

def sha1Round (st : Sha1State) (tw : Nat × Nat) : Sha1State :=
  let temp := (rotl 5 st.a + sha1F tw.1 st.b st.c st.d + st.e
                + sha1K tw.1 + tw.2) % M32
  ⟨temp, st.a, rotl 30 st.b, st.c, st.d⟩

def sha1Block (st : Sha1State) (block : List Nat) : Sha1State :=
  let ws := (sha1ExtendW (bytesToWords block).reverse 64).reverse
  let r := ((List.range 80).zip ws).foldl sha1Round st
  ⟨(st.a + r.a) % M32, (st.b + r.b) % M32, (st.c + r.c) % M32,
   (st.d + r.d) % M32, (st.e + r.e) % M32⟩

/-- SHA-1 digest (20 bytes) of a byte list. -/
def sha1Bytes (msg : List Nat) : List Nat :=
  let st := (chunks64 (shaPad msg)).foldl sha1Block sha1Init
  toBytesBE 4 st.a ++ toBytesBE 4 st.b ++ toBytesBE 4 st.c ++ toBytesBE 4 st.d
    ++ toBytesBE 4 st.e

/-! ## Hex rendering and UTF-8 encoding -/

/-- Lowercase hex digit. -/
def hexChar (d : Nat) : Char :=
  if d < 10 then Char.ofNat (48 + d) else Char.ofNat (87 + d)

/-- Two lowercase hex digits of a byte, as produced by the `hex` crate. -/
def hexByte (b : Nat) : List Char := [hexChar ((b / 16) % 16), hexChar (b % 16)]

def hexBytes (bs : List Nat) : List Char := bs.foldr (fun b acc => hexByte b ++ acc) []

/-- UTF-8 encoding of one character. -/
def utf8Char (c : Char) : List Nat :=
  let n := c.toNat
  if n < 0x80 then [n]
  else if n < 0x800 then [0xC0 ||| (n >>> 6), 0x80 ||| (n &&& 0x3F)]
  else if n < 0x10000 then
    [0xE0 ||| (n >>> 12), 0x80 ||| ((n >>> 6) &&& 0x3F), 0x80 ||| (n &&& 0x3F)]
  else
    [0xF0 ||| (n >>> 18), 0x80 ||| ((n >>> 12) &&& 0x3F),
     0x80 ||| ((n >>> 6) &&& 0x3F), 0x80 ||| (n &&& 0x3F)]

def utf8Encode (l : List Char) : List Nat :=
  l.foldr (fun c acc => utf8Char c ++ acc) []

/-- `hash_entry` of `src/index.rs`: lowercase hex of the SHA-256 digest of
the UTF-8 bytes. -/
def hash_entry (s : List Char) : List Char := hexBytes (sha256Bytes (utf8Encode s))

/-- `hash_key` of `src/index.rs`: lowercase hex of the SHA-1 digest of the
UTF-8 bytes. -/
def hash_key (key : String) : String := ⟨hexBytes (sha1Bytes (utf8Encode key.data))⟩

/-! ## JSON values (`serde_json::Value`)

Numbers are modelled as integers: the index itself only ever serializes
the integer fields `time` and `size`, and `metadata` is opaque to it.
Floating-point JSON numbers are outside the model. -/

inductive Json where
  | null
  | bool (b : Bool)
  | num (n : Int)
  | str (s : String)
  | arr (elems : List Json)
  | obj (members : List (String × Json))

/-! ## JSON printing (`serde_json::to_string`) -/

def digitChar (n : Nat) : Char := Char.ofNat (48 + n)

/-- Decimal digits of `n`, most significant first; fuel-recursive so that
it reduces in the kernel (any `fuel > n` gives the digits of `n`). -/
def printNatAux : Nat → Nat → List Char
  | 0, _ => []
  | fuel + 1, n =>
    if n < 10 then [digitChar n]
    else printNatAux fuel (n / 10) ++ [digitChar (n % 10)]

def printNat (n : Nat) : List Char := printNatAux (n + 1) n

def printInt : Int → List Char
  | .ofNat n => printNat n
  | .negSucc m => '-' :: printNat (m + 1)

/-- `serde_json`'s string escaping: `"` and `\` get a backslash, the
control characters `\b \t \n \f \r` their short escapes, all other
control characters a `\u00XX` escape, and everything else is verbatim. -/
def escapeChar (c : Char) : List Char :=
  if c = '"' then ['\\', '"']
  else if c = '\\' then ['\\', '\\']
  else if c.toNat < 0x20 then
    if c.toNat = 0x08 then ['\\', 'b']
    else if c.toNat = 0x09 then ['\\', 't']
    else if c.toNat = 0x0A then ['\\', 'n']
    else if c.toNat = 0x0C then ['\\', 'f']
    else if c.toNat = 0x0D then ['\\', 'r']
    else ['\\', 'u', '0', '0', hexChar (c.toNat / 16), hexChar (c.toNat % 16)]
  else [c]

def escapeString (l : List Char) : List Char :=
  l.foldr (fun c acc => escapeChar c ++ acc) []

def printStr (s : String) : List Char := '"' :: escapeString s.data ++ ['"']

mutual

def printJson : Json → List Char
  | .null => "null".data
  | .bool true => "true".data
  | .bool false => "false".data
  | .num i => printInt i
  | .str s => printStr s
  | .arr es => '[' :: printElems es ++ [']']
  | .obj ms => '\x7b' :: printMembers ms ++ ['\x7d']

def printElems : List Json → List Char
  | [] => []
  | [e] => printJson e
  | e :: e2 :: es => printJson e ++ ',' :: printElems (e2 :: es)

def printMembers : List (String × Json) → List Char
  | [] => []
  | [(k, v)] => printStr k ++ ':' :: printJson v
  | (k, v) :: m :: ms => (printStr k ++ ':' :: printJson v) ++ ',' :: printMembers (m :: ms)

end

/-! ## JSON parsing (`serde_json::from_str`)

A recursive-descent parser over the character list, with explicit fuel for
nesting depth so that it is structurally recursive and reduces in the
kernel.  Supported faithfully: whitespace, the literals, integers with the
leading-zero restriction, strings with the standard escapes and
non-surrogate `\uXXXX`, arrays and objects.  Outside the model: floats
and surrogate-pair escapes. -/

def isWsChar (c : Char) : Bool := c = ' ' || c = '\t' || c = '\n' || c = '\r'

def skipWs : List Char → List Char
  | [] => []
  | c :: cs => if isWsChar c then skipWs cs else c :: cs

def hexDigitVal (c : Char) : Option Nat :=
  if '0' ≤ c ∧ c ≤ '9' then some (c.toNat - 48)
  else if 'a' ≤ c ∧ c ≤ 'f' then some (c.toNat - 87)
  else if 'A' ≤ c ∧ c ≤ 'F' then some (c.toNat - 55)
  else none

def simpleEscape (e : Char) : Option Char :=
  if e = '"' then some '"'
  else if e = '\\' then some '\\'
  else if e = '/' then some '/'
  else if e = 'b' then some (Char.ofNat 0x08)
  else if e = 'f' then some (Char.ofNat 0x0C)
  else if e = 'n' then some '\n'
  else if e = 'r' then some (Char.ofNat 0x0D)
  else if e = 't' then some '\t'
  else none

/-- Parse a string body after the opening quote; returns the decoded
characters and the rest after the closing quote. -/
def parseStrAux : List Char → Option (List Char × List Char)
  | [] => none
  | c :: cs =>
    if c = '"' then some ([], cs)
    else if c = '\\' then
      match cs with
      | [] => none
      | e :: cs2 =>
        if e = 'u' then
          match cs2 with
          | h1 :: h2 :: h3 :: h4 :: cs3 =>
            match hexDigitVal h1, hexDigitVal h2, hexDigitVal h3, hexDigitVal h4 with
            | some a, some b, some c', some d =>
              let n := ((a * 16 + b) * 16 + c') * 16 + d
              if n < 0xD800 ∨ 0xE000 ≤ n then
                (parseStrAux cs3).map (fun r => (Char.ofNat n :: r.1, r.2))
              else none
            | _, _, _, _ => none
          | _ => none
        else
          match simpleEscape e with
          | some ch => (parseStrAux cs2).map (fun r => (ch :: r.1, r.2))
          | none => none
    else if c.toNat < 0x20 then none
    else (parseStrAux cs).map (fun r => (c :: r.1, r.2))

def parseDigitsAcc : Nat → List Char → Nat × List Char
  | acc, [] => (acc, [])
  | acc, c :: cs =>
    if c.isDigit then parseDigitsAcc (acc * 10 + (c.toNat - 48)) cs
    else (acc, c :: cs)

/-- After the integer part: a fraction or exponent would make the number a
float, which the model does not represent. -/
def parseNumAfter (neg : Bool) (n : Nat) (r : List Char) : Option (Json × List Char) :=
  match r with
  | c :: _ =>
    if c = '.' ∨ c = 'e' ∨ c = 'E' then none
    else some (.num (if neg then -(n : Int) else (n : Int)), r)
  | [] => some (.num (if neg then -(n : Int) else (n : Int)), [])

def parseNumMag (neg : Bool) : List Char → Option (Json × List Char)
  | [] => none
  | c :: t =>
    if c = '0' then
      match t with
      | d :: _ => if d.isDigit then none else parseNumAfter neg 0 t
      | [] => parseNumAfter neg 0 []
    else if c.isDigit then
      let p := parseDigitsAcc 0 (c :: t)
      parseNumAfter neg p.1 p.2
    else none

def parseNumber : List Char → Option (Json × List Char)
  | [] => none
  | c :: t => if c = '-' then parseNumMag true t else parseNumMag false (c :: t)

mutual

def parseVal : Nat → List Char → Option (Json × List Char)
  | 0, _ => none
  | fuel + 1, cs =>
    match skipWs cs with
    | [] => none
    | c :: cs' =>
      if c = 'n' then
        match cs' with
        | 'u' :: 'l' :: 'l' :: r => some (.null, r)
        | _ => none
      else if c = 't' then
        match cs' with
        | 'r' :: 'u' :: 'e' :: r => some (.bool true, r)
        | _ => none
      else if c = 'f' then
        match cs' with
        | 'a' :: 'l' :: 's' :: 'e' :: r => some (.bool false, r)
        | _ => none
      else if c = '"' then
        (parseStrAux cs').map (fun r => (.str ⟨r.1⟩, r.2))
      else if c = '[' then
        match skipWs cs' with
        | ']' :: r => some (.arr [], r)
        | _ => (parseElems fuel cs').map (fun r => (.arr r.1, r.2))
      else if c = '\x7b' then
        match skipWs cs' with
        | '\x7d' :: r => some (.obj [], r)
        | _ => (parseMembers fuel cs').map (fun r => (.obj r.1, r.2))
      else parseNumber (c :: cs')

def parseElems : Nat → List Char → Option (List Json × List Char)
  | 0, _ => none
  | fuel + 1, cs =>
    match parseVal fuel cs with
    | none => none
    | some (v, r) =>
      match skipWs r with
      | ',' :: r2 => (parseElems fuel r2).map (fun p => (v :: p.1, p.2))
      | ']' :: r2 => some ([v], r2)
      | _ => none

def parseMembers : Nat → List Char → Option (List (String × Json) × List Char)
  | 0, _ => none
  | fuel + 1, cs =>
    match skipWs cs with
    | '"' :: cs1 =>
      match parseStrAux cs1 with
      | none => none
      | some (k, r1) =>
        match skipWs r1 with
        | ':' :: r2 =>
          match parseVal fuel r2 with
          | none => none
          | some (v, r3) =>
            match skipWs r3 with
            | ',' :: r4 => (parseMembers fuel r4).map (fun p => ((⟨k⟩, v) :: p.1, p.2))
            | '\x7d' :: r4 => some ([(⟨k⟩, v)], r4)
            | _ => none
        | _ => none
    | _ => none

end

mutual

/-- The nesting-depth fuel sufficient to parse a printed value (any fuel
at least this large works). -/
def needFuel : Json → Nat
  | .arr es => needFuelElems es + 1
  | .obj ms => needFuelMembers ms + 1
  | _ => 1

def needFuelElems : List Json → Nat
  | [] => 1
  | e :: es => max (needFuel e) (needFuelElems es) + 1

def needFuelMembers : List (String × Json) → Nat
  | [] => 1
  | (_, v) :: ms => max (needFuel v) (needFuelMembers ms) + 1

end

/-- A rest-of-input that cannot extend a just-parsed number: empty, or
starting with a character that is no digit, `.`, `e` or `E`. -/
def NumStop : List Char → Prop
  | [] => True
  | c :: _ => c.isDigit = false ∧ c ≠ '.' ∧ c ≠ 'e' ∧ c ≠ 'E'

/-! ## The index data model (`src/index.rs`) -/

def INDEX_VERSION : String := "5"

structure SerializableEntry where
  key : String
  integrity : Option String
  time : Nat
  size : Nat
  metadata : Json

/-- `serde_json::to_string` serializes the struct as an object in field
declaration order, `Option::None` as `null`. -/
def seToJson (e : SerializableEntry) : Json :=
  .obj [("key", .str e.key),
        ("integrity", match e.integrity with | some s => .str s | none => .null),
        ("time", .num (e.time : Int)),
        ("size", .num (e.size : Int)),
        ("metadata", e.metadata)]

def toStrSE (e : SerializableEntry) : String := ⟨printJson (seToJson e)⟩

def jsonLookup (ms : List (String × Json)) (k : String) : Option Json :=
  (ms.find? (fun kv => kv.1 == k)).map (fun kv => kv.2)

/-- `Option<String>` field: absent or `null` is `None`, a string is
`Some`; anything else fails. -/
def extractIntegrity : Option Json → Option (Option String)
  | none => some none
  | some .null => some none
  | some (.str s) => some (some s)
  | some _ => none

/-- `2 ^ 128`, the number of `u128` values. -/
def U128_BOUND : Nat := 340282366920938463463374607431768211456

/-- `2 ^ 64`, the number of 64-bit `usize` values. -/
def USIZE_BOUND : Nat := 18446744073709551616

/-- An unsigned-integer field bounded by the Rust integer type: a
non-negative integer below `bound`. -/
def extractU (bound : Nat) : Option Json → Option Nat
  | some (.num (.ofNat m)) => if m < bound then some m else none
  | _ => none

/-- The object members of a JSON value, when it is an object. -/
def asObj : Json → Option (List (String × Json))
  | .obj ms => some ms
  | _ => none

/-- A required string field. -/
def asStr : Option Json → Option String
  | some (.str s) => some s
  | _ => none

/-- Deserializing `SerializableEntry` from a JSON value: required fields
`key` (string), `time` (`u128`), `size` (`usize`, 64-bit), `metadata`
(any value); optional `integrity`; unknown fields ignored (serde's
default). -/
def extractSE (v : Json) : Option SerializableEntry :=
  (asObj v).bind fun ms =>
  (asStr (jsonLookup ms "key")).bind fun k =>
  (extractIntegrity (jsonLookup ms "integrity")).bind fun integ =>
  (extractU U128_BOUND (jsonLookup ms "time")).bind fun t =>
  (extractU USIZE_BOUND (jsonLookup ms "size")).bind fun sz =>
  (jsonLookup ms "metadata").bind fun md =>
  some ⟨k, integ, t, sz, md⟩

/-- `serde_json::from_str::<SerializableEntry>`: parse one JSON value,
require only whitespace to follow, then deserialize the struct. -/
def fromStrSE (s : List Char) : Option SerializableEntry :=
  match parseVal (s.length + 1) s with
  | some (v, rest) => if (skipWs rest).isEmpty then extractSE v else none
  | none => none

/-! ## Integrity handles (the external `ssri` crate) -/

structure Integrity where
  text : String
deriving DecidableEq

/-- Modelled from the spec: `Integrity::to_string` of the external `ssri`
crate; the handle is "opaque to this core beyond string
(de)serialization and equality" (§6). -/
def Integrity.toStr (i : Integrity) : String := i.text

def isBase64Char (c : Char) : Bool :=
  c.isAlphanum || c = '+' || c = '/' || c = '='

/-- Modelled from the spec: a string parses as an integrity handle exactly
when it has the `"<algorithm>-<base64digest>"` shape (§6, §Glossary),
with a nonempty alphanumeric algorithm and a nonempty base64 digest. -/
def validSri (s : String) : Bool :=
  match splitOnChar '-' s.data with
  | [alg, digest] =>
    !alg.isEmpty && alg.all Char.isAlphanum
      && !digest.isEmpty && digest.all isBase64Char
  | _ => false

/-- Modelled from the spec: `str::parse::<Integrity>` of the external
`ssri` crate. -/
def parseIntegrity (s : String) : Option Integrity :=
  if validSri s then some ⟨s⟩ else none

/-- The placeholder `"sha1-deadbeef".parse::<Integrity>().unwrap()` that
`insert` returns when no integrity was supplied. -/
def placeholderIntegrity : Integrity := ⟨"sha1-deadbeef"⟩

/-! ## The public data model -/

/-- Modelled from the spec (§4.3): the option bundle of the put module
(`put.rs`, not under `src/`), with exactly the fields `src/index.rs`
uses: optional integrity handle (`sri`), `size`, `time`, `metadata`, and
ownership `uid`/`gid`; `algorithm` is carried but unused by the index. -/
structure PutOpts where
  algorithm : Option String
  size : Option Nat
  sri : Option Integrity
  time : Option Nat
  metadata : Option Json
  uid : Option Nat
  gid : Option Nat

/-- A cache index entry, as returned to callers. -/
structure Entry where
  key : String
  integrity : Integrity
  time : Nat
  size : Nat
  metadata : Json

/-! ## The filesystem model

An association list from path strings to file contents.  Directory
creation (`mkdirp`) and ownership changes (`chownr`) have no observable
effect on it and are no-ops; I/O never fails in the model. -/

abbrev FS := List (String × String)

def readFile (fs : FS) (p : String) : Option String :=
  (fs.find? (fun kv => kv.1 == p)).map (fun kv => kv.2)

/-- Reading a bucket file: a missing file is empty content
(`ErrorKind::NotFound` is mapped to `""` in `bucket_entries`). -/
def readFileD (fs : FS) (p : String) : String := (readFile fs p).getD ""

/-- `OpenOptions::new().create(true).append(true)` followed by one
`write_all`: append to the file, creating it when absent. -/
def appendFile (fs : FS) (p s : String) : FS :=
  if (readFile fs p).isSome then
    fs.map (fun kv => if kv.1 == p then (kv.1, kv.2 ++ s) else kv)
  else fs ++ [(p, s)]

/-! ## Paths and the index API (`src/index.rs`) -/

def indexDir (cache : String) : String := cache ++ "/index-v" ++ INDEX_VERSION

/-- `bucket_path`: `<cache>/index-v5/<hex[0:2]>/<hex[2:4]>/<hex[4:]>` of
the SHA-1 key hash. -/
def bucket_path (cache : String) (key : String) : String :=
  let hashed := hash_key key
  indexDir cache ++ "/" ++ (⟨hashed.data.take 2⟩ : String) ++ "/"
    ++ (⟨(hashed.data.drop 2).take 2⟩ : String) ++ "/"
    ++ (⟨hashed.data.drop 4⟩ : String)

/-- `bucket_entries` after the file read: fold over the `\n`-separated
lines, skipping empty lines, lines that do not split on `\t` into exactly
two fields, lines whose checksum does not match, and payloads that fail to
deserialize. -/
def decodeBucket (lines : List Char) : List SerializableEntry :=
  (splitOnChar '\n' lines).foldl
    (fun acc entry =>
      if entry.isEmpty then acc
      else
        match splitOnChar '\t' entry with
        | [hash, entryStr] =>
          if hash_entry entryStr ≠ hash then acc
          else
            match fromStrSE entryStr with
            | some e => acc ++ [e]
            | none => acc
        | _ => acc)
    []

/-- `bucket_entries` of `src/index.rs`: read the bucket file (missing file
is empty content) and decode it. -/
def bucket_entries (fs : FS) (bucket : String) : List SerializableEntry :=
  decodeBucket (readFileD fs bucket).data

/-- The on-disk record line `"\n" ++ hex(sha256(json)) ++ "\t" ++ json`
built by `insert`. -/
def encodeLine (e : SerializableEntry) : String :=
  "\n" ++ (⟨hash_entry (toStrSE e).data⟩ : String) ++ "\t" ++ toStrSE e

/-- The `SerializableEntry` that `insert` builds (lines 48–54 of
`src/index.rs`): integrity is the stringified input handle, `time`
defaults to the wall clock, `size` to `0`, `metadata` to JSON `null`. -/
def mkEntry (key : String) (opts : PutOpts) (nowMs : Nat) : SerializableEntry :=
  { key := key
    integrity := opts.sri.map Integrity.toStr
    time := opts.time.getD nowMs
    size := opts.size.getD 0
    metadata := opts.metadata.getD .null }

/-- `insert` of `src/index.rs`.  `nowMs` is the wall clock's value in
milliseconds (the `now()` call).  Returns the written integrity handle
(the placeholder when none was supplied) and the new filesystem. -/
def insert (fs : FS) (cache : String) (key : String) (opts : PutOpts)
    (nowMs : Nat) : Integrity × FS :=
  let bucket := bucket_path cache key
  let entry : SerializableEntry := mkEntry key opts nowMs
  (opts.sri.getD placeholderIntegrity, appendFile fs bucket (encodeLine entry))

/-- The fold body of `find` (the closure at lines 71–91 of
`src/index.rs`): a matching record with a parseable integrity string
becomes the current `Entry`, a tombstone resets to `None`, an unparseable
integrity string leaves the accumulator unchanged (`_ => return acc`). -/
def findStep (key : String) (acc : Option Entry) (entry : SerializableEntry) :
    Option Entry :=
  if entry.key == key then
    match entry.integrity with
    | some integrity =>
      match parseIntegrity integrity with
      | some sri => some ⟨entry.key, sri, entry.time, entry.size, entry.metadata⟩
      | none => acc
    | none => none
  else acc

/-- `find` of `src/index.rs`: fold `findStep` over the bucket records. -/
def find (fs : FS) (cache : String) (key : String) : Option Entry :=
  (bucket_entries fs (bucket_path cache key)).foldl (findStep key) none

/-- `delete` of `src/index.rs`: an `insert` with every optional field
empty (a tombstone append). -/
def delete (fs : FS) (cache : String) (key : String) (nowMs : Nat) : FS :=
  (insert fs cache key
    { algorithm := none, size := none, sri := none,
      time := none, metadata := none, uid := none, gid := none } nowMs).2

/-- The `dedupe` HashMap of `ls`, modelled as an association list whose
`insert` overwrites in place; iteration order is a refinement of the
HashMap's unspecified order. -/
def mapInsert (m : List (String × SerializableEntry)) (k : String)
    (v : SerializableEntry) : List (String × SerializableEntry) :=
  if (m.find? (fun kv => kv.1 == k)).isSome then
    m.map (fun kv => if kv.1 == k then (k, v) else kv)
  else m ++ [(k, v)]

/-- Processing one bucket file in `ls`: decode, dedupe by key (last
occurrence wins), filter out tombstones, then build each `Entry` with
`integrity.unwrap().parse().unwrap()` — the `Except.error ()` arms model
those panics. -/
def lsBucket (content : List Char) : Except Unit (List Entry) :=
  let entries := decodeBucket content
  let dedupe := entries.foldl (fun m e => mapInsert m e.key e) []
  (dedupe.filter (fun kv => kv.2.integrity.isSome)).mapM
    (fun kv =>
      match kv.2.integrity with
      | some s =>
        match parseIntegrity s with
        | some i => Except.ok (⟨kv.2.key, i, kv.2.time, kv.2.size, kv.2.metadata⟩ : Entry)
        | none => Except.error ()
      | none => Except.error ())

/-- `WalkDir::new(indexDir)`: in the model, the files whose path lies
under the index directory (directory entries themselves yield nothing in
the source and are not modelled). -/
def walk (fs : FS) (dir : String) : FS :=
  fs.filter (fun kv => (dir ++ "/").data.isPrefixOf kv.1.data)

/-- `ls` of `src/index.rs`.  In the model I/O never fails, so the items of
the source's lazy sequence are all `Ok`; a panic while building an entry
(`Except.error ()`) aborts the whole traversal like a Rust panic. -/
def ls (fs : FS) (cache : String) : Except Unit (List Entry) :=
  ((walk fs (indexDir cache)).mapM (fun kv => lsBucket kv.2.data)).map List.flatten

/-! ## Spec-side description of the bucket reader (for the refinement
claim about `bucket_entries`) -/

/-- Modelled from the spec's words (§4.2, §4.4): a line decodes to a
record when it is non-empty, splits on tab into exactly two fields, its
checksum field equals the hash of the payload, and the payload parses as
a `SerializableEntry`. -/
def decodeLineSpec (line : List Char) : Option SerializableEntry :=
  if line.isEmpty then none
  else
    match splitOnChar '\t' line with
    | [checksum, payload] =>
      if hash_entry payload = checksum then fromStrSE payload else none
    | _ => none

/-- Modelled from the spec's words (§4.4): the records, in file order, of
the decodable lines. -/
def decodeBucketSpec (content : List Char) : List SerializableEntry :=
  (splitOnChar '\n' content).filterMap decodeLineSpec

/-! ## Concrete fixtures for counterexamples and witnesses -/

/-- A record with a parseable integrity string. -/
def ceSE1 : SerializableEntry := ⟨"hello", some "sha1-deadbeef", 1234567, 0, .null⟩

/-- A record whose integrity string fails to parse (no `-` separator). -/
def ceSE2 : SerializableEntry := ⟨"hello", some "garbage", 7654321, 1, .null⟩

/-- A bucket whose records for `"hello"` end with an unparseable-integrity
record, preceded by a parseable one. -/
def fsC1 : FS := [(bucket_path "cache" "hello", encodeLine ceSE1 ++ encodeLine ceSE2)]

/-- A bucket whose single (hence surviving) record for `"hello"` is a
non-tombstone with an unparseable integrity string. -/
def fsC2 : FS := [(bucket_path "cache" "hello", encodeLine ceSE2)]

/-- A one-record bucket used to exhibit a successful `find`. -/
def fsC10 : FS := [(bucket_path "cache" "hello", encodeLine ceSE1)]

/-- The `Entry` decoded from `ceSE1`. -/
def ceEntry1 : Entry := ⟨"hello", ⟨"sha1-deadbeef"⟩, 1234567, 0, .null⟩

/-- The all-empty option bundle used by `delete`. -/
def emptyOpts : PutOpts :=
  { algorithm := none, size := none, sri := none,
    time := none, metadata := none, uid := none, gid := none }

end Cacache

/-- Sanity anchor: SHA-256 of the empty message (FIPS 180-4 test vector). -/
theorem sha256_empty_vector :
    (⟨Cacache.hexBytes (Cacache.sha256Bytes [])⟩ : String)
      = "e3b0c44298fc1c149afbf4c8996fb92427ae41e4649b934ca495991b7852b855" := by
  decide

/-- Sanity anchor: SHA-256 of `"abc"`. -/
theorem sha256_abc_vector :
    (⟨Cacache.hexBytes (Cacache.sha256Bytes [97, 98, 99])⟩ : String)
      = "ba7816bf8f01cfea414140de5dae2223b00361a396177a9cb410ff61f20015ad" := by
  decide

/-- Sanity anchor: SHA-1 of `"abc"`. -/
theorem sha1_abc_vector :
    (⟨Cacache.hexBytes (Cacache.sha1Bytes [97, 98, 99])⟩ : String)
      = "a9993e364706816aba3e25717850c26c9cd0d89d" := by
  decide

/-- Sanity anchor: `hash_key "hello"` (SHA-1). -/
theorem hash_key_hello :
    Cacache.hash_key "hello" = "aaf4c61ddcc5e8a2dabede0f3b482cd9aea9434d" := by
  decide

namespace Cacache

/-! ## Lemmas about line splitting -/

theorem splitOnChar_ne_nil (c : Char) (l : List Char) : splitOnChar c l ≠ [] := by
  induction l with
  | nil => simp [splitOnChar]
  | cons x xs ih =>
    simp only [splitOnChar]
    cases h : splitOnChar c xs with
    | nil => simp
    | cons hd tl => by_cases hx : x = c <;> simp [hx]

theorem splitOnChar_append_cons (c : Char) (as bs : List Char) :
    splitOnChar c (as ++ c :: bs) = splitOnChar c as ++ splitOnChar c bs := by
  induction as with
  | nil =>
    simp only [List.nil_append, splitOnChar]
    cases h : splitOnChar c bs with
    | nil => exact absurd h (splitOnChar_ne_nil c bs)
    | cons hd tl => simp
  | cons x xs ih =>
    cases h : splitOnChar c xs with
    | nil => exact absurd h (splitOnChar_ne_nil c xs)
    | cons hd tl =>
      by_cases hx : x = c <;>
        simp [splitOnChar, ih, h, hx, List.cons_append]

theorem splitOnChar_eq_single (c : Char) (l : List Char) (h : ∀ x ∈ l, x ≠ c) :
    splitOnChar c l = [l] := by
  induction l with
  | nil => rfl
  | cons x xs ih =>
    have hx : x ≠ c := h x (by simp)
    have hxs := ih (fun y hy => h y (by simp [hy]))
    simp [splitOnChar, hxs, hx]

/-! ## The bucket decoder as a `filterMap` (refinement of `decodeBucket`
to the spec's per-line description) -/

theorem foldl_push_filterMap {α β : Type} (f : α → Option β) (l : List α)
    (init : List β) :
    l.foldl (fun acc x => acc ++ (f x).toList) init = init ++ l.filterMap f := by
  induction l generalizing init with
  | nil => simp
  | cons x xs ih =>
    simp only [List.foldl_cons, List.filterMap_cons]
    cases h : f x <;> simp [h, ih]

theorem decodeBucket_step (acc : List SerializableEntry) (entry : List Char) :
    (if entry.isEmpty then acc
     else
       match splitOnChar '\t' entry with
       | [hash, entryStr] =>
         if hash_entry entryStr ≠ hash then acc
         else
           match fromStrSE entryStr with
           | some e => acc ++ [e]
           | none => acc
       | _ => acc)
      = acc ++ (decodeLineSpec entry).toList := by
  unfold decodeLineSpec
  by_cases he : entry.isEmpty
  · simp [he]
  · simp only [he, if_false, Bool.false_eq_true]
    cases h : splitOnChar '\t' entry with
    | nil => simp
    | cons a t =>
      cases t with
      | nil => simp
      | cons b t2 =>
        cases t2 with
        | nil =>
          by_cases hh : hash_entry b = a
          · cases hf : fromStrSE b <;> simp [hh, hf]
          · simp [hh]
        | cons c3 t3 => simp

theorem decodeBucket_eq_spec (content : List Char) :
    decodeBucket content = decodeBucketSpec content := by
  unfold decodeBucket decodeBucketSpec
  have hstep :
      (fun (acc : List SerializableEntry) (entry : List Char) =>
        if entry.isEmpty then acc
        else
          match splitOnChar '\t' entry with
          | [hash, entryStr] =>
            if hash_entry entryStr ≠ hash then acc
            else
              match fromStrSE entryStr with
              | some e => acc ++ [e]
              | none => acc
          | _ => acc)
        = (fun (acc : List SerializableEntry) (entry : List Char) =>
            acc ++ (decodeLineSpec entry).toList) :=
    funext fun acc => funext fun entry => decodeBucket_step acc entry
  rw [hstep, foldl_push_filterMap decodeLineSpec]
  simp

/-! ## Character-set facts: a printed record line contains neither `'\n'`
nor `'\t'` outside its two separators -/

theorem hexChar_ne (d : Nat) (h : d < 16) : hexChar d ≠ '\n' ∧ hexChar d ≠ '\t' := by
  have h16 : ∀ d : Fin 16, hexChar d.val ≠ '\n' ∧ hexChar d.val ≠ '\t' := by decide
  exact h16 ⟨d, h⟩

theorem digitChar_ne (d : Nat) (h : d < 10) : digitChar d ≠ '\n' ∧ digitChar d ≠ '\t' := by
  have h10 : ∀ d : Fin 10, digitChar d.val ≠ '\n' ∧ digitChar d.val ≠ '\t' := by decide
  exact h10 ⟨d, h⟩

theorem escapeChar_good (c x : Char) (hx : x ∈ escapeChar c) :
    x ≠ '\n' ∧ x ≠ '\t' := by
  unfold escapeChar at hx
  split_ifs at hx with h1 h2 h3 h8 h9 h10 h12 h13
  · fin_cases hx <;> exact ⟨by decide, by decide⟩
  · fin_cases hx <;> exact ⟨by decide, by decide⟩
  · fin_cases hx <;> exact ⟨by decide, by decide⟩
  · fin_cases hx <;> exact ⟨by decide, by decide⟩
  · fin_cases hx <;> exact ⟨by decide, by decide⟩
  · fin_cases hx <;> exact ⟨by decide, by decide⟩
  · fin_cases hx <;> exact ⟨by decide, by decide⟩
  · rcases List.mem_cons.mp hx with rfl | hx
    · exact ⟨by decide, by decide⟩
    rcases List.mem_cons.mp hx with rfl | hx
    · exact ⟨by decide, by decide⟩
    rcases List.mem_cons.mp hx with rfl | hx
    · exact ⟨by decide, by decide⟩
    rcases List.mem_cons.mp hx with rfl | hx
    · exact ⟨by decide, by decide⟩
    rcases List.mem_cons.mp hx with rfl | hx
    · exact hexChar_ne _ (by omega)
    rcases List.mem_singleton.mp hx with rfl
    exact hexChar_ne _ (Nat.mod_lt _ (by omega))
  · rcases List.mem_singleton.mp hx with rfl
    constructor
    · intro hc; subst hc; exact h3 (by decide)
    · intro hc; subst hc; exact h3 (by decide)

theorem escapeString_good (l : List Char) (x : Char) (hx : x ∈ escapeString l) :
    x ≠ '\n' ∧ x ≠ '\t' := by
  induction l with
  | nil => simp [escapeString] at hx
  | cons c cs ih =>
    have hx' : x ∈ escapeChar c ++ escapeString cs := hx
    rcases List.mem_append.mp hx' with h | h
    · exact escapeChar_good c x h
    · exact ih h

theorem printStr_good (s : String) (x : Char) (hx : x ∈ printStr s) :
    x ≠ '\n' ∧ x ≠ '\t' := by
  unfold printStr at hx
  rcases List.mem_cons.mp hx with rfl | hx
  · exact ⟨by decide, by decide⟩
  rcases List.mem_append.mp hx with h | h
  · exact escapeString_good _ x h
  · rcases List.mem_singleton.mp h with rfl
    exact ⟨by decide, by decide⟩

theorem printNatAux_good (fuel : Nat) : ∀ (n : Nat) (x : Char),
    x ∈ printNatAux fuel n → x ≠ '\n' ∧ x ≠ '\t' := by
  induction fuel with
  | zero => intro n x hx; simp [printNatAux] at hx
  | succ f ih =>
    intro n x hx
    simp only [printNatAux] at hx
    by_cases hn : n < 10
    · rw [if_pos hn] at hx
      rcases List.mem_singleton.mp hx with rfl
      exact digitChar_ne n hn
    · rw [if_neg hn] at hx
      rcases List.mem_append.mp hx with h | h
      · exact ih _ x h
      · rcases List.mem_singleton.mp h with rfl
        exact digitChar_ne _ (Nat.mod_lt _ (by omega))

theorem printInt_good (i : Int) (x : Char) (hx : x ∈ printInt i) :
    x ≠ '\n' ∧ x ≠ '\t' := by
  cases i with
  | ofNat n => exact printNatAux_good _ n x hx
  | negSucc m =>
    rcases List.mem_cons.mp hx with rfl | h
    · exact ⟨by decide, by decide⟩
    · exact printNatAux_good _ _ x h

theorem json_sizeOf_pos (v : Json) : 1 ≤ sizeOf v := by
  cases v <;> simp_arith

theorem jsonList_sizeOf_pos (es : List Json) : 1 ≤ sizeOf es := by
  cases es <;> simp_arith

theorem jsonMembers_sizeOf_pos (ms : List (String × Json)) : 1 ≤ sizeOf ms := by
  cases ms <;> simp_arith

theorem printJson_chars_aux :
    ∀ N : Nat,
      (∀ v : Json, sizeOf v ≤ N → ∀ x ∈ printJson v, x ≠ '\n' ∧ x ≠ '\t')
        ∧ (∀ es : List Json, sizeOf es ≤ N →
            ∀ x ∈ printElems es, x ≠ '\n' ∧ x ≠ '\t')
        ∧ (∀ ms : List (String × Json), sizeOf ms ≤ N →
            ∀ x ∈ printMembers ms, x ≠ '\n' ∧ x ≠ '\t') := by
  intro N
  induction N with
  | zero =>
    refine ⟨fun v hv => absurd hv ?_, fun es hes => absurd hes ?_,
      fun ms hms => absurd hms ?_⟩
    · have := json_sizeOf_pos v; omega
    · have := jsonList_sizeOf_pos es; omega
    · have := jsonMembers_sizeOf_pos ms; omega
  | succ n ih =>
    obtain ⟨ihv, ihe, ihm⟩ := ih
    refine ⟨?_, ?_, ?_⟩
    · intro v hv x hx
      cases v with
      | null => exact (show ∀ y ∈ printJson Json.null, y ≠ '\n' ∧ y ≠ '\t' by decide) x hx
      | bool b =>
        cases b with
        | true =>
          exact (show ∀ y ∈ printJson (Json.bool true), y ≠ '\n' ∧ y ≠ '\t' by decide) x hx
        | false =>
          exact (show ∀ y ∈ printJson (Json.bool false), y ≠ '\n' ∧ y ≠ '\t' by decide) x hx
      | num i => exact printInt_good i x hx
      | str s => exact printStr_good s x hx
      | arr es =>
        have hx' : x ∈ '[' :: (printElems es ++ [']']) := by
          simpa [printJson] using hx
        rcases List.mem_cons.mp hx' with rfl | hx2
        · exact ⟨by decide, by decide⟩
        rcases List.mem_append.mp hx2 with h | h
        · have hsz : sizeOf es ≤ n := by simp_arith at hv; omega
          exact ihe es hsz x h
        · rcases List.mem_singleton.mp h with rfl
          exact ⟨by decide, by decide⟩
      | obj ms =>
        have hx' : x ∈ '\x7b' :: (printMembers ms ++ ['\x7d']) := by
          simpa [printJson] using hx
        rcases List.mem_cons.mp hx' with rfl | hx2
        · exact ⟨by decide, by decide⟩
        rcases List.mem_append.mp hx2 with h | h
        · have hsz : sizeOf ms ≤ n := by simp_arith at hv; omega
          exact ihm ms hsz x h
        · rcases List.mem_singleton.mp h with rfl
          exact ⟨by decide, by decide⟩
    · intro es hes x hx
      cases es with
      | nil => simp [printElems] at hx
      | cons e es' =>
        cases es' with
        | nil =>
          have hx' : x ∈ printJson e := hx
          have hsz : sizeOf e ≤ n := by simp_arith at hes; omega
          exact ihv e hsz x hx'
        | cons e2 es'' =>
          have hx' : x ∈ printJson e ++ ',' :: printElems (e2 :: es'') := hx
          rcases List.mem_append.mp hx' with h | h
          · have hsz : sizeOf e ≤ n := by simp_arith at hes; omega
            exact ihv e hsz x h
          rcases List.mem_cons.mp h with rfl | h2
          · exact ⟨by decide, by decide⟩
          · have hsz : sizeOf (e2 :: es'') ≤ n := by
              simp_arith at hes ⊢; omega
            exact ihe (e2 :: es'') hsz x h2
    · intro ms hms x hx
      cases ms with
      | nil => simp [printMembers] at hx
      | cons m ms' =>
        obtain ⟨k, v⟩ := m
        cases ms' with
        | nil =>
          have hx' : x ∈ printStr k ++ ':' :: printJson v := hx
          rcases List.mem_append.mp hx' with h | h
          · exact printStr_good k x h
          rcases List.mem_cons.mp h with rfl | h2
          · exact ⟨by decide, by decide⟩
          · have hsz : sizeOf v ≤ n := by simp_arith at hms; omega
            exact ihv v hsz x h2
        | cons m2 ms'' =>
          have hx' : x ∈ (printStr k ++ ':' :: printJson v)
              ++ ',' :: printMembers (m2 :: ms'') := hx
          rcases List.mem_append.mp hx' with h | h
          · rcases List.mem_append.mp h with h1 | h1
            · exact printStr_good k x h1
            rcases List.mem_cons.mp h1 with rfl | h2
            · exact ⟨by decide, by decide⟩
            · have hsz : sizeOf v ≤ n := by simp_arith at hms; omega
              exact ihv v hsz x h2
          · rcases List.mem_cons.mp h with rfl | h2
            · exact ⟨by decide, by decide⟩
            · have hsz : sizeOf (m2 :: ms'') ≤ n := by
                simp_arith at hms ⊢; omega
              exact ihm (m2 :: ms'') hsz x h2

theorem printJson_good (v : Json) : ∀ x ∈ printJson v, x ≠ '\n' ∧ x ≠ '\t' :=
  fun x hx => (printJson_chars_aux (sizeOf v)).1 v le_rfl x hx

/-! ## Hex digests: character set and length -/

theorem mem_hexBytes (bs : List Nat) (x : Char) (hx : x ∈ hexBytes bs) :
    ∃ d, d < 16 ∧ x = hexChar d := by
  induction bs with
  | nil => simp [hexBytes] at hx
  | cons b bs ih =>
    have hx' : x ∈ hexByte b ++ hexBytes bs := hx
    rcases List.mem_append.mp hx' with h | h
    · rcases List.mem_cons.mp h with rfl | h2
      · exact ⟨(b / 16) % 16, Nat.mod_lt _ (by omega), rfl⟩
      rcases List.mem_singleton.mp h2 with rfl
      exact ⟨b % 16, Nat.mod_lt _ (by omega), rfl⟩
    · exact ih h

theorem hash_entry_good (s : List Char) :
    ∀ x ∈ hash_entry s, x ≠ '\n' ∧ x ≠ '\t' := by
  intro x hx
  obtain ⟨d, hd, rfl⟩ := mem_hexBytes _ x hx
  exact hexChar_ne d hd

theorem toBytesBE_length (k x : Nat) : (toBytesBE k x).length = k := by
  induction k generalizing x with
  | zero => rfl
  | succ n ih => simp [toBytesBE, ih]

theorem hexBytes_length (bs : List Nat) : (hexBytes bs).length = 2 * bs.length := by
  induction bs with
  | nil => rfl
  | cons b bs ih =>
    have hstep : hexBytes (b :: bs) = hexByte b ++ hexBytes bs := rfl
    rw [hstep, List.length_append, ih]
    simp [hexByte, List.length_cons]
    omega

theorem sha256Bytes_length (msg : List Nat) : (sha256Bytes msg).length = 32 := by
  simp [sha256Bytes, toBytesBE_length]

theorem hash_entry_length (s : List Char) : (hash_entry s).length = 64 := by
  simp [hash_entry, hexBytes_length, sha256Bytes_length]

theorem hash_entry_ne_nil (s : List Char) : hash_entry s ≠ [] := by
  intro h
  have := hash_entry_length s
  rw [h] at this
  simp at this

/-! ## The decimal printer and its parser -/

theorem printNatAux_fuel_eq : ∀ (n f f' : Nat), n < f → n < f' →
    printNatAux f n = printNatAux f' n := by
  intro n
  induction n using Nat.strong_induction_on with
  | _ n ih =>
    intro f f' hf hf'
    cases f with
    | zero => omega
    | succ fk =>
      cases f' with
      | zero => omega
      | succ fk' =>
        simp only [printNatAux]
        by_cases hn : n < 10
        · simp [hn]
        · rw [if_neg hn, if_neg hn]
          have h1 : n / 10 < n := Nat.div_lt_self (by omega) (by omega)
          rw [ih (n / 10) h1 fk fk' (by omega) (by omega)]

theorem printNat_eq (n : Nat) :
    printNat n = if n < 10 then [digitChar n]
      else printNat (n / 10) ++ [digitChar (n % 10)] := by
  by_cases hn : n < 10
  · simp [printNat, printNatAux, hn]
  · have h1 : n / 10 < n := Nat.div_lt_self (by omega) (by omega)
    have hL : printNat n = printNatAux n (n / 10) ++ [digitChar (n % 10)] := by
      simp [printNat, printNatAux, hn]
    rw [hL, if_neg hn, printNatAux_fuel_eq (n / 10) n (n / 10 + 1) h1 (by omega)]
    rfl

theorem digitChar_facts (d : Nat) (h : d < 10) :
    (digitChar d).isDigit = true ∧ (digitChar d).toNat = 48 + d
      ∧ isWsChar (digitChar d) = false ∧ digitChar d ≠ '-'
      ∧ digitChar d ≠ 'n' ∧ digitChar d ≠ 't' ∧ digitChar d ≠ 'f'
      ∧ digitChar d ≠ '"' ∧ digitChar d ≠ '[' ∧ digitChar d ≠ '\x7b'
      ∧ digitChar d ≠ ']' := by
  have hfin : ∀ d : Fin 10,
      (digitChar d.val).isDigit = true ∧ (digitChar d.val).toNat = 48 + d.val
        ∧ isWsChar (digitChar d.val) = false ∧ digitChar d.val ≠ '-'
        ∧ digitChar d.val ≠ 'n' ∧ digitChar d.val ≠ 't' ∧ digitChar d.val ≠ 'f'
        ∧ digitChar d.val ≠ '"' ∧ digitChar d.val ≠ '[' ∧ digitChar d.val ≠ '\x7b'
        ∧ digitChar d.val ≠ ']' := by decide
  exact hfin ⟨d, h⟩

theorem digitChar_ne_zero (d : Nat) (h : d < 10) (h0 : d ≠ 0) :
    digitChar d ≠ '0' := by
  have hfin : ∀ d : Fin 10, d.val ≠ 0 → digitChar d.val ≠ '0' := by decide
  exact hfin ⟨d, h⟩ h0

theorem printNat_head (n : Nat) :
    ∃ d t, d < 10 ∧ printNat n = digitChar d :: t ∧ (1 ≤ n → d ≠ 0) := by
  induction n using Nat.strong_induction_on with
  | _ n ih =>
    by_cases hn : n < 10
    · exact ⟨n, [], hn, by rw [printNat_eq, if_pos hn], fun h1 => by omega⟩
    · obtain ⟨d, t, hd, heq, hne⟩ :=
        ih (n / 10) (Nat.div_lt_self (by omega) (by omega))
      refine ⟨d, t ++ [digitChar (n % 10)], hd, ?_, fun _ => hne (by omega)⟩
      rw [printNat_eq, if_neg hn, heq]
      simp

theorem parseDigitsAcc_printNat (n : Nat) : ∀ (acc : Nat) (rest : List Char),
    parseDigitsAcc acc (printNat n ++ rest)
      = parseDigitsAcc (acc * 10 ^ (printNat n).length + n) rest := by
  induction n using Nat.strong_induction_on with
  | _ n ih =>
    intro acc rest
    rw [printNat_eq n]
    by_cases hn : n < 10
    · rw [if_pos hn]
      obtain ⟨hdig, htn, -⟩ := digitChar_facts n hn
      simp only [List.cons_append, List.nil_append, List.length_cons,
        List.length_nil, parseDigitsAcc, hdig, if_true]
      have h48 : 48 + n - 48 = n := by omega
      rw [htn, h48, pow_one]
      simp
    · rw [if_neg hn]
      have h1 : n / 10 < n := Nat.div_lt_self (by omega) (by omega)
      rw [List.append_assoc, ih (n / 10) h1 acc _, List.singleton_append]
      obtain ⟨hdig, htn, -⟩ := digitChar_facts (n % 10) (Nat.mod_lt _ (by omega))
      simp only [parseDigitsAcc, hdig, if_true, List.length_append,
        List.length_cons, List.length_nil]
      rw [htn]
      have h48 : 48 + n % 10 - 48 = n % 10 := by omega
      rw [h48]
      congr 1
      set L := (printNat (n / 10)).length
      calc (acc * 10 ^ L + n / 10) * 10 + n % 10
          = acc * (10 ^ L * 10) + (10 * (n / 10) + n % 10) := by ring
        _ = acc * (10 ^ L * 10) + n := by rw [Nat.div_add_mod]
        _ = acc * 10 ^ (L + 1) + n := by rw [pow_succ]

theorem parseDigitsAcc_stop (acc : Nat) (rest : List Char) (h : NumStop rest) :
    parseDigitsAcc acc rest = (acc, rest) := by
  cases rest with
  | nil => rfl
  | cons c cs => simp [parseDigitsAcc, h.1]

theorem parseNumAfter_stop (neg : Bool) (n : Nat) (rest : List Char)
    (h : NumStop rest) :
    parseNumAfter neg n rest
      = some (.num (if neg then -(n : Int) else (n : Int)), rest) := by
  cases rest with
  | nil => rfl
  | cons c cs =>
    obtain ⟨h1, h2, h3, h4⟩ := h
    simp [parseNumAfter, h2, h3, h4]

theorem parseNumMag_print (neg : Bool) (n : Nat) (rest : List Char)
    (h : NumStop rest) :
    parseNumMag neg (printNat n ++ rest)
      = some (.num (if neg then -(n : Int) else (n : Int)), rest) := by
  by_cases h0 : n = 0
  · subst h0
    have hp0 : printNat 0 = ['0'] := rfl
    rw [hp0, List.singleton_append]
    cases rest with
    | nil =>
      have hstep : parseNumMag neg ['0'] = parseNumAfter neg 0 [] := by
        simp [parseNumMag]
      rw [hstep, parseNumAfter_stop neg 0 [] trivial]
    | cons c cs =>
      have hstep : parseNumMag neg ('0' :: c :: cs) = parseNumAfter neg 0 (c :: cs) := by
        simp [parseNumMag, h.1]
      rw [hstep, parseNumAfter_stop neg 0 (c :: cs) h]
  · obtain ⟨d, t, hd, heq, hdz⟩ := printNat_head n
    have hdz' : d ≠ 0 := hdz (by omega)
    obtain ⟨hdig, -⟩ := digitChar_facts d hd
    have hne0 : digitChar d ≠ '0' := digitChar_ne_zero d hd hdz'
    rw [heq, List.cons_append]
    have hstep : parseNumMag neg (digitChar d :: (t ++ rest))
        = parseNumAfter neg (parseDigitsAcc 0 (digitChar d :: (t ++ rest))).1
            (parseDigitsAcc 0 (digitChar d :: (t ++ rest))).2 := by
      simp [parseNumMag, hne0, hdig]
    rw [hstep]
    have hin : digitChar d :: (t ++ rest) = printNat n ++ rest := by
      rw [heq, List.cons_append]
    rw [hin, parseDigitsAcc_printNat n 0 rest]
    simp only [Nat.zero_mul, Nat.zero_add]
    rw [parseDigitsAcc_stop n rest h]
    exact parseNumAfter_stop neg n rest h

theorem parseNumber_print (i : Int) (rest : List Char) (h : NumStop rest) :
    parseNumber (printInt i ++ rest) = some (.num i, rest) := by
  cases i with
  | ofNat n =>
    obtain ⟨d, t, hd, heq, -⟩ := printNat_head n
    have hmin := (digitChar_facts d hd).2.2.2.1
    have hpn : printInt (Int.ofNat n) = printNat n := rfl
    rw [hpn, heq, List.cons_append]
    have hstep : parseNumber (digitChar d :: (t ++ rest))
        = parseNumMag false (digitChar d :: (t ++ rest)) := by
      simp [parseNumber, hmin]
    rw [hstep,
      show digitChar d :: (t ++ rest) = printNat n ++ rest from by
        rw [heq, List.cons_append],
      parseNumMag_print false n rest h]
    simp

  | negSucc m =>
    have hpn : printInt (Int.negSucc m) ++ rest = '-' :: (printNat (m + 1) ++ rest) := by
      simp [printInt]
    rw [hpn]
    have hstep : parseNumber ('-' :: (printNat (m + 1) ++ rest))
        = parseNumMag true (printNat (m + 1) ++ rest) := by
      simp [parseNumber]
    rw [hstep, parseNumMag_print true (m + 1) rest h, Int.negSucc_eq]
    simp
    try ring

/-! ## The string-literal printer and its parser -/

theorem hexDigitVal_hexChar (d : Nat) (h : d < 16) :
    hexDigitVal (hexChar d) = some d := by
  have hfin : ∀ d : Fin 16, hexDigitVal (hexChar d.val) = some d.val := by decide
  exact hfin ⟨d, h⟩

theorem parseStrAux_print (s : List Char) : ∀ (rest : List Char),
    parseStrAux (escapeString s ++ '"' :: rest) = some (s, rest) := by
  induction s with
  | nil =>
    intro rest
    show parseStrAux ('"' :: rest) = some ([], rest)
    rw [parseStrAux.eq_def]
    simp
  | cons c cs ih =>
    intro rest
    have hes : escapeString (c :: cs) = escapeChar c ++ escapeString cs := rfl
    rw [hes, List.append_assoc]
    unfold escapeChar
    split_ifs with h1 h2 h3 h8 h9 h10 h12 h13
    · subst h1
      rw [parseStrAux.eq_def]
      simp [simpleEscape, ih]
    · subst h2
      rw [parseStrAux.eq_def]
      simp [simpleEscape, ih]
    · have hc : c = Char.ofNat 8 := by rw [← Char.ofNat_toNat c, h8]
      subst hc
      rw [parseStrAux.eq_def]
      simp [simpleEscape, ih]
    · have hc : c = Char.ofNat 9 := by rw [← Char.ofNat_toNat c, h9]
      subst hc
      rw [parseStrAux.eq_def]
      simp [simpleEscape, ih, show '\t' = Char.ofNat 9 from by decide]
    · have hc : c = Char.ofNat 10 := by rw [← Char.ofNat_toNat c, h10]
      subst hc
      rw [parseStrAux.eq_def]
      simp [simpleEscape, ih, show '\n' = Char.ofNat 10 from by decide]
    · have hc : c = Char.ofNat 12 := by rw [← Char.ofNat_toNat c, h12]
      subst hc
      rw [parseStrAux.eq_def]
      simp [simpleEscape, ih]
    · have hc : c = Char.ofNat 13 := by rw [← Char.ofNat_toNat c, h13]
      subst hc
      rw [parseStrAux.eq_def]
      simp [simpleEscape, ih]
    · have ha : c.toNat / 16 < 16 := by omega
      have hb : c.toNat % 16 < 16 := Nat.mod_lt _ (by omega)
      have h0 : hexDigitVal '0' = some 0 := by decide
      have hval : ((0 * 16 + 0) * 16 + c.toNat / 16) * 16 + c.toNat % 16
          = c.toNat := by omega
      have hlt : c.toNat < 55296 := by omega
      rw [parseStrAux.eq_def]
      simp only [List.cons_append]
      simp [h0, hexDigitVal_hexChar _ ha, hexDigitVal_hexChar _ hb, ih]
      have hv2 : c.toNat / 16 * 16 + c.toNat % 16 = c.toNat := by omega
      rw [hv2]
      exact ⟨Or.inl hlt, Char.ofNat_toNat c⟩
    · rw [parseStrAux.eq_def]
      simp [h1, h2, h3, ih]

/-! ## Round trip of the JSON value parser on printed values -/

theorem numStop_rbracket (rest : List Char) : NumStop (']' :: rest) :=
  ⟨by decide, by decide, by decide, by decide⟩

theorem numStop_comma (rest : List Char) : NumStop (',' :: rest) :=
  ⟨by decide, by decide, by decide, by decide⟩

theorem numStop_rbrace (rest : List Char) : NumStop ('\x7d' :: rest) :=
  ⟨by decide, by decide, by decide, by decide⟩

theorem needFuel_pos (v : Json) : 1 ≤ needFuel v := by
  cases v <;> simp [needFuel]

theorem needFuelElems_pos (es : List Json) : 1 ≤ needFuelElems es := by
  cases es <;> simp [needFuelElems]

theorem needFuelMembers_pos (ms : List (String × Json)) : 1 ≤ needFuelMembers ms := by
  cases ms with
  | nil => simp [needFuelMembers]
  | cons m ms => obtain ⟨k, v⟩ := m; simp [needFuelMembers]

theorem parseVal_print_null (f : Nat) (rest : List Char) :
    parseVal (f + 1) (printJson .null ++ rest) = some (.null, rest) := by
  show parseVal (f + 1) ('n' :: 'u' :: 'l' :: 'l' :: rest) = some (.null, rest)
  simp [parseVal, skipWs, isWsChar]

theorem parseVal_print_bool (f : Nat) (b : Bool) (rest : List Char) :
    parseVal (f + 1) (printJson (.bool b) ++ rest) = some (.bool b, rest) := by
  cases b
  · show parseVal (f + 1) ('f' :: 'a' :: 'l' :: 's' :: 'e' :: rest)
      = some (.bool false, rest)
    simp [parseVal, skipWs, isWsChar]
  · show parseVal (f + 1) ('t' :: 'r' :: 'u' :: 'e' :: rest)
      = some (.bool true, rest)
    simp [parseVal, skipWs, isWsChar]

theorem parseVal_print_num (f : Nat) (i : Int) (rest : List Char)
    (hstop : NumStop rest) :
    parseVal (f + 1) (printJson (.num i) ++ rest) = some (.num i, rest) := by
  cases i with
  | ofNat n =>
    obtain ⟨d, t, hd, heq, -⟩ := printNat_head n
    obtain ⟨hdig, htn, hws, hmin, hn, ht, hf, hq, hbr, hbrace, hrbr⟩ :=
      digitChar_facts d hd
    have hpj : printJson (Json.num (Int.ofNat n)) ++ rest
        = digitChar d :: (t ++ rest) := by
      show printNat n ++ rest = _
      rw [heq, List.cons_append]
    rw [hpj, parseVal.eq_def]
    simp [skipWs, hws, hn, ht, hf, hq, hbr, hbrace]

    rw [← List.cons_append, ← heq]
    exact parseNumber_print (Int.ofNat n) rest hstop
  | negSucc m =>
    have hpj : printJson (Json.num (Int.negSucc m)) ++ rest
        = '-' :: (printNat (m + 1) ++ rest) := by
      show printInt (Int.negSucc m) ++ rest = _
      simp [printInt]
    rw [hpj, parseVal.eq_def]
    simp [skipWs, isWsChar]
    have hin : ('-' :: (printNat (m + 1) ++ rest))
        = printInt (Int.negSucc m) ++ rest := by simp [printInt]
    rw [hin]
    exact parseNumber_print _ rest hstop

theorem parseVal_print_str (f : Nat) (s : String) (rest : List Char) :
    parseVal (f + 1) (printJson (.str s) ++ rest) = some (.str s, rest) := by
  obtain ⟨sd⟩ := s
  have hpj : printJson (Json.str ⟨sd⟩) ++ rest
      = '"' :: (escapeString sd ++ '"' :: rest) := by
    show ('"' :: (escapeString sd ++ ['"'])) ++ rest = _
    simp
  rw [hpj, parseVal.eq_def]
  simp [skipWs, isWsChar, parseStrAux_print sd rest]

theorem parseVal_print_arrnil (f : Nat) (rest : List Char) :
    parseVal (f + 1) (printJson (.arr []) ++ rest) = some (.arr [], rest) := by
  show parseVal (f + 1) ('[' :: ']' :: rest) = some (.arr [], rest)
  simp [parseVal, skipWs, isWsChar]

theorem parseVal_print_objnil (f : Nat) (rest : List Char) :
    parseVal (f + 1) (printJson (.obj []) ++ rest) = some (.obj [], rest) := by
  show parseVal (f + 1) ('\x7b' :: '\x7d' :: rest) = some (.obj [], rest)
  simp [parseVal, skipWs, isWsChar]

theorem printJson_head (v : Json) :
    ∃ c t, printJson v = c :: t ∧ isWsChar c = false ∧ c ≠ ']' := by
  cases v with
  | null => exact ⟨'n', _, rfl, by decide, by decide⟩
  | bool b =>
    cases b
    · exact ⟨'f', _, rfl, by decide, by decide⟩
    · exact ⟨'t', _, rfl, by decide, by decide⟩
  | num i =>
    cases i with
    | ofNat n =>
      obtain ⟨d, t, hd, heq, -⟩ := printNat_head n
      obtain ⟨-, -, hws, -, -, -, -, -, -, -, hrbr⟩ := digitChar_facts d hd
      exact ⟨digitChar d, t, heq, hws, hrbr⟩
    | negSucc m => exact ⟨'-', _, rfl, by decide, by decide⟩
  | str s => exact ⟨'"', _, rfl, by decide, by decide⟩
  | arr es => exact ⟨'[', _, rfl, by decide, by decide⟩
  | obj ms => exact ⟨'\x7b', _, rfl, by decide, by decide⟩

theorem printMembers_head (ms : List (String × Json)) (h : ms ≠ []) :
    ∃ t1, printMembers ms = '"' :: t1 := by
  cases ms with
  | nil => exact absurd rfl h
  | cons m ms' =>
    obtain ⟨k, v⟩ := m
    cases ms' with
    | nil =>
      refine ⟨escapeString k.data ++ ['"'] ++ ':' :: printJson v, ?_⟩
      show ('"' :: (escapeString k.data ++ ['"'])) ++ ':' :: printJson v = _
      simp
    | cons m2 ms'' =>
      refine ⟨escapeString k.data ++ ['"'] ++ ':' :: printJson v
        ++ ',' :: printMembers (m2 :: ms''), ?_⟩
      show (('"' :: (escapeString k.data ++ ['"'])) ++ ':' :: printJson v)
        ++ ',' :: printMembers (m2 :: ms'') = _
      simp

theorem parse_print_aux : ∀ N : Nat,
    (∀ v : Json, sizeOf v ≤ N → ∀ (fuel : Nat) (rest : List Char),
        needFuel v ≤ fuel → NumStop rest →
        parseVal fuel (printJson v ++ rest) = some (v, rest))
    ∧ (∀ es : List Json, sizeOf es ≤ N → es ≠ [] →
        ∀ (fuel : Nat) (rest : List Char), needFuelElems es ≤ fuel →
        parseElems fuel (printElems es ++ ']' :: rest) = some (es, rest))
    ∧ (∀ ms : List (String × Json), sizeOf ms ≤ N → ms ≠ [] →
        ∀ (fuel : Nat) (rest : List Char), needFuelMembers ms ≤ fuel →
        parseMembers fuel (printMembers ms ++ '\x7d' :: rest) = some (ms, rest)) := by
  intro N
  induction N with
  | zero =>
    refine ⟨fun v hv => absurd hv ?_, fun es hes => absurd hes ?_,
      fun ms hms => absurd hms ?_⟩
    · have := json_sizeOf_pos v; omega
    · have := jsonList_sizeOf_pos es; omega
    · have := jsonMembers_sizeOf_pos ms; omega
  | succ n ih =>
    obtain ⟨ihv, ihe, ihm⟩ := ih
    refine ⟨?_, ?_, ?_⟩
    · intro v hv fuel rest hfuel hstop
      have h1 := needFuel_pos v
      cases fuel with
      | zero => omega
      | succ f =>
        cases v with
        | null => exact parseVal_print_null f rest
        | bool b => exact parseVal_print_bool f b rest
        | num i => exact parseVal_print_num f i rest hstop
        | str s => exact parseVal_print_str f s rest
        | arr es =>
          cases es with
          | nil => exact parseVal_print_arrnil f rest
          | cons e es' =>
            obtain ⟨c0, t0, he0, hws0, hbr0⟩ := printJson_head e
            have hpe : ∃ t1, printElems (e :: es') = c0 :: t1 := by
              cases es' with
              | nil => exact ⟨t0, he0⟩
              | cons e2 es'' =>
                refine ⟨t0 ++ ',' :: printElems (e2 :: es''), ?_⟩
                show printJson e ++ ',' :: printElems (e2 :: es'') = _
                rw [he0, List.cons_append]
            obtain ⟨t1, ht1⟩ := hpe
            have hsz : sizeOf (e :: es') ≤ n := by
              simp_arith at hv ⊢; omega
            have hfe : needFuelElems (e :: es') ≤ f := by
              simp [needFuel] at hfuel; omega
            have hrec := ihe (e :: es') hsz (by simp) f rest hfe
            have hpj : printJson (Json.arr (e :: es')) ++ rest
                = '[' :: (printElems (e :: es') ++ ']' :: rest) := by
              show ('[' :: (printElems (e :: es') ++ [']'])) ++ rest = _
              simp
            rw [ht1] at hrec
            rw [hpj, ht1, parseVal.eq_def]
            simp [skipWs, hws0, hbr0,
              show isWsChar '[' = false from by decide]
            exact hrec
        | obj ms =>
          cases ms with
          | nil => exact parseVal_print_objnil f rest
          | cons m ms' =>
            obtain ⟨t1, ht1⟩ := printMembers_head (m :: ms') (by simp)
            have hsz : sizeOf (m :: ms') ≤ n := by
              simp_arith at hv ⊢; omega
            have hfm : needFuelMembers (m :: ms') ≤ f := by
              simp [needFuel] at hfuel; omega
            have hrec := ihm (m :: ms') hsz (by simp) f rest hfm
            have hpj : printJson (Json.obj (m :: ms')) ++ rest
                = '\x7b' :: (printMembers (m :: ms') ++ '\x7d' :: rest) := by
              show ('\x7b' :: (printMembers (m :: ms') ++ ['\x7d'])) ++ rest = _
              simp
            rw [ht1] at hrec
            rw [hpj, ht1, parseVal.eq_def]
            simp [skipWs,
              show isWsChar '\x7b' = false from by decide,
              show isWsChar '"' = false from by decide,
              show ('"' : Char) ≠ '\x7d' from by decide]
            exact hrec
    · intro es hes hne fuel rest hfuel
      cases es with
      | nil => exact absurd rfl hne
      | cons e es' =>
        have h1 := needFuelElems_pos (e :: es')
        cases fuel with
        | zero => omega
        | succ f =>
          have hsze : sizeOf e ≤ n := by simp_arith at hes; omega
          have hfeV : needFuel e ≤ f := by
            simp [needFuelElems] at hfuel; omega
          cases es' with
          | nil =>
            have hv := ihv e hsze f (']' :: rest) hfeV (numStop_rbracket rest)
            show parseElems (f + 1) (printJson e ++ ']' :: rest) = some ([e], rest)
            rw [parseElems.eq_def]
            simp [hv, skipWs, isWsChar]
          | cons e2 es'' =>
            have hv := ihv e hsze f
              (',' :: (printElems (e2 :: es'') ++ ']' :: rest)) hfeV
              (numStop_comma _)
            have hsze2 : sizeOf (e2 :: es'') ≤ n := by
              simp_arith at hes ⊢; omega
            have hfe2 : needFuelElems (e2 :: es'') ≤ f := by
              simp [needFuelElems] at hfuel ⊢; omega
            have hrec := ihe (e2 :: es'') hsze2 (by simp) f rest hfe2
            show parseElems (f + 1)
                ((printJson e ++ ',' :: printElems (e2 :: es'')) ++ ']' :: rest)
              = some (e :: e2 :: es'', rest)
            rw [List.append_assoc, List.cons_append]
            rw [parseElems.eq_def]
            simp [hv, skipWs, isWsChar, hrec]
    · intro ms hms hne fuel rest hfuel
      cases ms with
      | nil => exact absurd rfl hne
      | cons m ms' =>
        obtain ⟨k, v⟩ := m
        have h1 := needFuelMembers_pos ((k, v) :: ms')
        cases fuel with
        | zero => omega
        | succ f =>
          have hszv : sizeOf v ≤ n := by simp_arith at hms; omega
          have hfv : needFuel v ≤ f := by
            simp [needFuelMembers] at hfuel; omega
          obtain ⟨kd⟩ := k
          cases ms' with
          | nil =>
            have hv := ihv v hszv f ('\x7d' :: rest) hfv (numStop_rbrace rest)
            show parseMembers (f + 1)
                ((printStr ⟨kd⟩ ++ ':' :: printJson v) ++ '\x7d' :: rest)
              = some ([(⟨kd⟩, v)], rest)
            have hshape : (printStr ⟨kd⟩ ++ ':' :: printJson v) ++ '\x7d' :: rest
                = '"' :: (escapeString kd
                    ++ '"' :: (':' :: (printJson v ++ '\x7d' :: rest))) := by
              show (('"' :: (escapeString kd ++ ['"'])) ++ ':' :: printJson v)
                ++ '\x7d' :: rest = _
              simp
            rw [hshape, parseMembers.eq_def]
            simp [skipWs, isWsChar, parseStrAux_print kd, hv]
          | cons m2 ms'' =>
            have hv := ihv v hszv f
              (',' :: (printMembers (m2 :: ms'') ++ '\x7d' :: rest)) hfv
              (numStop_comma _)
            have hsz2 : sizeOf (m2 :: ms'') ≤ n := by
              simp_arith at hms ⊢; omega
            have hf2 : needFuelMembers (m2 :: ms'') ≤ f := by
              simp [needFuelMembers] at hfuel ⊢; omega
            have hrec := ihm (m2 :: ms'') hsz2 (by simp) f rest hf2
            show parseMembers (f + 1)
                (((printStr ⟨kd⟩ ++ ':' :: printJson v)
                  ++ ',' :: printMembers (m2 :: ms'')) ++ '\x7d' :: rest)
              = some ((⟨kd⟩, v) :: m2 :: ms'', rest)
            have hshape : ((printStr ⟨kd⟩ ++ ':' :: printJson v)
                  ++ ',' :: printMembers (m2 :: ms'')) ++ '\x7d' :: rest
                = '"' :: (escapeString kd ++ '"' :: (':' :: (printJson v
                    ++ ',' :: (printMembers (m2 :: ms'') ++ '\x7d' :: rest)))) := by
              show ((('"' :: (escapeString kd ++ ['"'])) ++ ':' :: printJson v)
                ++ ',' :: printMembers (m2 :: ms'')) ++ '\x7d' :: rest = _
              simp
            rw [hshape, parseMembers.eq_def]
            simp [skipWs, isWsChar, parseStrAux_print kd, hv, hrec]

theorem parseVal_print (v : Json) (fuel : Nat) (rest : List Char)
    (hf : needFuel v ≤ fuel) (hstop : NumStop rest) :
    parseVal fuel (printJson v ++ rest) = some (v, rest) :=
  (parse_print_aux (sizeOf v)).1 v le_rfl fuel rest hf hstop

/-! ## The fuel bound: the input length suffices as parsing fuel -/

theorem needFuel_le_aux : ∀ N : Nat,
    (∀ v : Json, sizeOf v ≤ N → needFuel v ≤ (printJson v).length)
    ∧ (∀ es : List Json, sizeOf es ≤ N →
        needFuelElems es ≤ (printElems es).length + 1)
    ∧ (∀ ms : List (String × Json), sizeOf ms ≤ N →
        needFuelMembers ms ≤ (printMembers ms).length + 1) := by
  intro N
  induction N with
  | zero =>
    refine ⟨fun v hv => absurd hv ?_, fun es hes => absurd hes ?_,
      fun ms hms => absurd hms ?_⟩
    · have := json_sizeOf_pos v; omega
    · have := jsonList_sizeOf_pos es; omega
    · have := jsonMembers_sizeOf_pos ms; omega
  | succ n ih =>
    obtain ⟨ihv, ihe, ihm⟩ := ih
    refine ⟨?_, ?_, ?_⟩
    · intro v hv
      cases v with
      | null => decide
      | bool b => cases b <;> decide
      | num i =>
        obtain ⟨c, t, heq, -, -⟩ := printJson_head (.num i)
        have : needFuel (Json.num i) = 1 := rfl
        rw [this, heq]
        simp
      | str s =>
        obtain ⟨c, t, heq, -, -⟩ := printJson_head (.str s)
        have : needFuel (Json.str s) = 1 := rfl
        rw [this, heq]
        simp
      | arr es =>
        have h := ihe es (by simp_arith at hv ⊢; omega)
        show needFuelElems es + 1 ≤ ('[' :: (printElems es ++ [']'])).length
        simp only [List.length_cons, List.length_append, List.length_singleton]
        omega
      | obj ms =>
        have h := ihm ms (by simp_arith at hv ⊢; omega)
        show needFuelMembers ms + 1 ≤ ('\x7b' :: (printMembers ms ++ ['\x7d'])).length
        simp only [List.length_cons, List.length_append, List.length_singleton]
        omega
    · intro es hes
      cases es with
      | nil => decide
      | cons e es' =>
        have he := ihv e (by simp_arith at hes ⊢; omega)
        obtain ⟨c, t, heq, -, -⟩ := printJson_head e
        have hlen : 1 ≤ (printJson e).length := by rw [heq]; simp
        cases es' with
        | nil =>
          show max (needFuel e) (needFuelElems []) + 1 ≤ (printJson e).length + 1
          have h2 : needFuelElems ([] : List Json) = 1 := rfl
          rw [h2]
          omega
        | cons e2 es'' =>
          have he2 := ihe (e2 :: es'') (by simp_arith at hes ⊢; omega)
          show max (needFuel e) (needFuelElems (e2 :: es'')) + 1
            ≤ (printJson e ++ ',' :: printElems (e2 :: es'')).length + 1
          simp only [List.length_append, List.length_cons]
          omega
    · intro ms hms
      cases ms with
      | nil => decide
      | cons m ms' =>
        obtain ⟨k, v⟩ := m
        have hv := ihv v (by simp_arith at hms ⊢; omega)
        cases ms' with
        | nil =>
          show max (needFuel v) (needFuelMembers []) + 1
            ≤ (printStr k ++ ':' :: printJson v).length + 1
          have h2 : needFuelMembers ([] : List (String × Json)) = 1 := rfl
          have h3 : printStr k = '"' :: (escapeString k.data ++ ['"']) := rfl
          rw [h2, h3]
          simp only [List.length_append, List.length_cons]
          omega
        | cons m2 ms'' =>
          have hm2 := ihm (m2 :: ms'') (by simp_arith at hms ⊢; omega)
          show max (needFuel v) (needFuelMembers (m2 :: ms'')) + 1
            ≤ ((printStr k ++ ':' :: printJson v)
                ++ ',' :: printMembers (m2 :: ms'')).length + 1
          simp only [List.length_append, List.length_cons]
          omega

theorem needFuel_le_length (v : Json) :
    needFuel v ≤ (printJson v).length :=
  (needFuel_le_aux (sizeOf v)).1 v le_rfl

/-! ## Round trip of `SerializableEntry` (de)serialization -/

theorem extractU_num (bound n : Nat) (h : n < bound) :
    extractU bound (some (.num (n : Int))) = some n := by
  show (if n < bound then some n else none) = some n
  rw [if_pos h]

theorem extractSE_seToJson (e : SerializableEntry) (ht : e.time < 2 ^ 128)
    (hs : e.size < 2 ^ 64) : extractSE (seToJson e) = some e := by
  obtain ⟨k, integ, t, sz, md⟩ := e
  simp only at ht hs
  have hu1 := extractU_num U128_BOUND t (by unfold U128_BOUND; omega)
  have hu2 := extractU_num USIZE_BOUND sz (by unfold USIZE_BOUND; omega)
  cases integ with
  | none =>
    show (extractU U128_BOUND (some (.num (t : Int)))).bind _ = _
    rw [hu1]
    show (extractU USIZE_BOUND (some (.num (sz : Int)))).bind _ = _
    rw [hu2]
    rfl
  | some s =>
    show (extractU U128_BOUND (some (.num (t : Int)))).bind _ = _
    rw [hu1]
    show (extractU USIZE_BOUND (some (.num (sz : Int)))).bind _ = _
    rw [hu2]
    rfl

theorem fromStrSE_toStrSE (e : SerializableEntry) (ht : e.time < 2 ^ 128)
    (hs : e.size < 2 ^ 64) : fromStrSE (toStrSE e).data = some e := by
  show fromStrSE (printJson (seToJson e)) = some e
  have hfuel : needFuel (seToJson e) ≤ (printJson (seToJson e)).length + 1 := by
    have := needFuel_le_length (seToJson e)
    omega
  have hp : parseVal ((printJson (seToJson e)).length + 1)
      (printJson (seToJson e)) = some (seToJson e, ([] : List Char)) := by
    have h0 := parseVal_print (seToJson e)
      ((printJson (seToJson e)).length + 1) [] hfuel trivial
    simpa using h0
  unfold fromStrSE
  rw [hp]
  simpa [skipWs] using extractSE_seToJson e ht hs

/-! ## Filesystem lemmas -/

theorem readFile_cons (kv : String × String) (fs : FS) (q : String) :
    readFile (kv :: fs) q = if kv.1 == q then some kv.2 else readFile fs q := by
  cases h : (kv.1 == q) <;> simp [readFile, h]

theorem readFile_map_append (fs : FS) (p s : String)
    (h : (readFile fs p).isSome = true) :
    readFile (fs.map (fun kv => if kv.1 == p then (kv.1, kv.2 ++ s) else kv)) p
      = some (readFileD fs p ++ s) := by
  induction fs with
  | nil => simp [readFile] at h
  | cons kv fs ih =>
    by_cases hp : (kv.1 == p) = true
    · rw [List.map_cons, if_pos hp, readFile_cons]
      simp [readFileD, readFile_cons, hp]
    · have h' : (readFile fs p).isSome = true := by
        rw [readFile_cons] at h
        simpa [hp] using h
      rw [List.map_cons, if_neg hp, readFile_cons]
      simp only [readFileD, readFile_cons, hp]
      simpa [hp] using ih h'

theorem readFile_appendFile_self (fs : FS) (p s : String) :
    readFile (appendFile fs p s) p = some (readFileD fs p ++ s) := by
  unfold appendFile
  by_cases h : (readFile fs p).isSome = true
  · rw [if_pos h]
    exact readFile_map_append fs p s h
  · rw [if_neg h]
    have hn : readFile fs p = none := by
      cases hf : readFile fs p with
      | none => rfl
      | some v => exact absurd (by simp [hf]) h
    clear h
    induction fs with
    | nil => simp [readFile, readFileD]
    | cons kv fs ih =>
      rw [readFile_cons] at hn
      rw [List.cons_append, readFile_cons]
      cases hq : (kv.1 == p) with
      | true => rw [hq] at hn; simp at hn
      | false =>
        rw [hq] at hn
        simp only [if_neg (by simp : ¬ (false = true))] at hn ⊢
        rw [ih hn]
        simp [readFileD, readFile_cons, hq, hn]

theorem readFile_appendFile_other (fs : FS) (p q s : String) (hq : q ≠ p) :
    readFile (appendFile fs p s) q = readFile fs q := by
  have hpq : (p == q) = false := by
    simp only [beq_eq_false_iff_ne, ne_eq]
    exact fun hh => hq hh.symm
  unfold appendFile
  by_cases h : (readFile fs p).isSome = true
  · rw [if_pos h]
    clear h
    induction fs with
    | nil => rfl
    | cons kv fs ih =>
      rw [List.map_cons, readFile_cons]
      by_cases hp : (kv.1 == p) = true
      · have hkv : kv.1 = p := by simpa using hp
        rw [if_pos hp, readFile_cons]
        simp only [hkv, hpq]
        simpa using ih
      · rw [if_neg hp, readFile_cons]
        cases hq2 : (kv.1 == q) with
        | true => rfl
        | false => simpa using ih
  · rw [if_neg h]
    clear h
    induction fs with
    | nil => simp [readFile_cons, readFile, hpq]
    | cons kv fs ih =>
      rw [List.cons_append, readFile_cons, readFile_cons]
      cases hq2 : (kv.1 == q) with
      | true => rfl
      | false => simpa using ih

/-! ## Appending one record line to a bucket -/

theorem encodeLine_data (e : SerializableEntry) :
    (encodeLine e).data
      = '\n' :: (hash_entry (toStrSE e).data ++ '\t' :: (toStrSE e).data) := by
  unfold encodeLine
  rw [String.data_append, String.data_append, String.data_append]
  show ['\n'] ++ hash_entry (toStrSE e).data ++ ['\t'] ++ (toStrSE e).data = _
  simp

theorem decodeLineSpec_encode (e : SerializableEntry) (ht : e.time < 2 ^ 128)
    (hs : e.size < 2 ^ 64) :
    decodeLineSpec (hash_entry (toStrSE e).data ++ '\t' :: (toStrSE e).data)
      = some e := by
  have hne : (hash_entry (toStrSE e).data ++ '\t' :: (toStrSE e).data).isEmpty
      = false := by
    cases hh : hash_entry (toStrSE e).data with
    | nil => exact absurd hh (hash_entry_ne_nil _)
    | cons a t => rw [List.cons_append]; rfl
  have hsplit : splitOnChar '\t' (hash_entry (toStrSE e).data ++ '\t' :: (toStrSE e).data)
      = [hash_entry (toStrSE e).data, (toStrSE e).data] := by
    rw [splitOnChar_append_cons,
        splitOnChar_eq_single _ _ (fun x hx => (hash_entry_good _ x hx).2),
        splitOnChar_eq_single _ ((toStrSE e).data)
          (fun x hx => (printJson_good (seToJson e) x hx).2)]
    rfl
  unfold decodeLineSpec
  rw [hne, hsplit]
  simp [fromStrSE_toStrSE e ht hs]

theorem decodeBucket_append_line (content : List Char) (e : SerializableEntry)
    (ht : e.time < 2 ^ 128) (hs : e.size < 2 ^ 64) :
    decodeBucket (content ++ (encodeLine e).data)
      = decodeBucket content ++ [e] := by
  rw [decodeBucket_eq_spec, decodeBucket_eq_spec]
  unfold decodeBucketSpec
  rw [encodeLine_data, splitOnChar_append_cons, List.filterMap_append]
  congr 1
  rw [splitOnChar_eq_single '\n' _ (fun x hx => by
    rcases List.mem_append.mp hx with h | h
    · exact (hash_entry_good _ x h).1
    · rcases List.mem_cons.mp h with rfl | h2
      · decide
      · exact (printJson_good (seToJson e) x h2).1)]
  simp [decodeLineSpec_encode e ht hs]

theorem decodeBucket_nil : decodeBucket [] = [] := rfl

theorem decodeBucket_encodeLine (e : SerializableEntry) (ht : e.time < 2 ^ 128)
    (hs : e.size < 2 ^ 64) :
    decodeBucket (encodeLine e).data = [e] := by
  have h := decodeBucket_append_line [] e ht hs
  simpa using h

theorem bucket_entries_appendFile (fs : FS) (b : String) (e : SerializableEntry)
    (ht : e.time < 2 ^ 128) (hs : e.size < 2 ^ 64) :
    bucket_entries (appendFile fs b (encodeLine e)) b
      = bucket_entries fs b ++ [e] := by
  unfold bucket_entries
  rw [show readFileD (appendFile fs b (encodeLine e)) b
        = readFileD fs b ++ encodeLine e from by
      unfold readFileD
      rw [readFile_appendFile_self]
      rfl]
  rw [String.data_append, decodeBucket_append_line _ e ht hs]

theorem bucket_entries_appendFile_other (fs : FS) (p q s : String) (hq : q ≠ p) :
    bucket_entries (appendFile fs p s) q = bucket_entries fs q := by
  unfold bucket_entries readFileD
  rw [readFile_appendFile_other fs p q s hq]

/-! ## `find` after appending one record -/

theorem parseIntegrity_toStr (i : Integrity) (h : validSri i.text = true) :
    parseIntegrity (Integrity.toStr i) = some i := by
  obtain ⟨t⟩ := i
  simp only [validSri] at h
  simp [parseIntegrity, Integrity.toStr, validSri, h]

theorem find_append_step (fs : FS) (cache key : String) (e : SerializableEntry)
    (ht : e.time < 2 ^ 128) (hs : e.size < 2 ^ 64) :
    find (appendFile fs (bucket_path cache key) (encodeLine e)) cache key
      = findStep key (find fs cache key) e := by
  unfold find
  rw [bucket_entries_appendFile fs _ e ht hs, List.foldl_append]
  rfl

/-! ## `Except` computation lemmas -/

theorem exceptBind_ok {ε α β : Type} (a : α) (f : α → Except ε β) :
    (Except.ok a >>= f) = f a := rfl

theorem exceptBind_error {ε α β : Type} (e : ε) (f : α → Except ε β) :
    ((Except.error e : Except ε α) >>= f) = Except.error e := rfl

theorem exceptMap_ok {ε α β : Type} (f : α → β) (a : α) :
    (Except.ok a : Except ε α).map f = Except.ok (f a) := rfl

theorem exceptMap_error {ε α β : Type} (f : α → β) (e : ε) :
    ((Except.error e : Except ε α)).map f = Except.error e := rfl

theorem exceptPure_eq {ε α : Type} (a : α) : (pure a : Except ε α) = Except.ok a := rfl

/-! ## `walk` and the index-directory layout -/

theorem prefix_data (a b : String) :
    (a.data).isPrefixOf ((a ++ b).data) = true := by
  simp [String.data_append]

theorem bucket_path_eq (cache key : String) :
    bucket_path cache key
      = (indexDir cache ++ "/")
        ++ ((⟨(hash_key key).data.take 2⟩ : String) ++ "/"
          ++ (⟨((hash_key key).data.drop 2).take 2⟩ : String) ++ "/"
          ++ (⟨(hash_key key).data.drop 4⟩ : String)) := by
  apply String.ext
  simp [bucket_path, String.data_append]

theorem indexDir_prefix_bucket (cache key : String) :
    ((indexDir cache ++ "/").data).isPrefixOf (bucket_path cache key).data = true := by
  rw [bucket_path_eq]
  exact prefix_data _ _

theorem walk_all (fs : FS) (dir : String)
    (hall : ∀ kv ∈ fs, ((dir ++ "/").data).isPrefixOf kv.1.data = true) :
    walk fs dir = fs := by
  unfold walk
  exact List.filter_eq_self.mpr hall

theorem ls_files (fs : FS) (cache : String)
    (hall : ∀ kv ∈ fs, ((indexDir cache ++ "/").data).isPrefixOf kv.1.data = true) :
    ls fs cache
      = (fs.mapM (fun kv => lsBucket kv.2.data)).map List.flatten := by
  unfold ls
  rw [walk_all fs (indexDir cache) hall]

/-! ## `appendFile` on concrete association lists -/

theorem appendFile_nil (p s : String) : appendFile [] p s = [(p, s)] := rfl

theorem appendFile_single_same (p s t : String) :
    appendFile [(p, s)] p t = [(p, s ++ t)] := by
  simp [appendFile, readFile]

theorem appendFile_single_other (p q s t : String) (h : q ≠ p) :
    appendFile [(p, s)] q t = [(p, s), (q, t)] := by
  have hpq : (p == q) = false := by
    rw [beq_eq_false_iff_ne]
    exact fun hh => h hh.symm
  simp [appendFile, readFile, hpq]

theorem appendFile_pair_first (p q s t u : String) (h : q ≠ p) :
    appendFile [(p, s), (q, t)] p u = [(p, s ++ u), (q, t)] := by
  have hqp : (q == p) = false := by
    rw [beq_eq_false_iff_ne]
    exact h
  simp [appendFile, readFile, hqp, h]

/-! ## `lsBucket` on small record lists -/

theorem lsBucket_single_ok (e : SerializableEntry) (ht : e.time < 2 ^ 128)
    (hs : e.size < 2 ^ 64) (s : String) (i : Integrity)
    (hi : e.integrity = some s) (hp : parseIntegrity s = some i) :
    lsBucket (encodeLine e).data
      = Except.ok [⟨e.key, i, e.time, e.size, e.metadata⟩] := by
  unfold lsBucket
  rw [decodeBucket_encodeLine e ht hs]
  simp [mapInsert, hi, hp, exceptBind_ok, exceptPure_eq, List.mapM, List.mapM.loop]

theorem lsBucket_single_error (e : SerializableEntry) (ht : e.time < 2 ^ 128)
    (hs : e.size < 2 ^ 64) (s : String)
    (hi : e.integrity = some s) (hp : parseIntegrity s = none) :
    lsBucket (encodeLine e).data = Except.error () := by
  unfold lsBucket
  rw [decodeBucket_encodeLine e ht hs]
  simp [mapInsert, hi, hp, exceptBind_error, exceptBind_ok, exceptPure_eq,
    List.mapM, List.mapM.loop]

theorem lsBucket_pair_tomb (e1 e3 : SerializableEntry)
    (ht1 : e1.time < 2 ^ 128) (hs1 : e1.size < 2 ^ 64)
    (ht3 : e3.time < 2 ^ 128) (hs3 : e3.size < 2 ^ 64)
    (hk : e3.key = e1.key) (hi3 : e3.integrity = none) :
    lsBucket ((encodeLine e1 ++ encodeLine e3)).data = Except.ok [] := by
  unfold lsBucket
  rw [String.data_append, decodeBucket_append_line _ e3 ht3 hs3,
      decodeBucket_encodeLine e1 ht1 hs1]
  simp [mapInsert, hk, hi3, exceptPure_eq, List.mapM, List.mapM.loop]

theorem lsBucket_three (e1 e2 e3 : SerializableEntry)
    (ht1 : e1.time < 2 ^ 128) (hs1 : e1.size < 2 ^ 64)
    (ht2 : e2.time < 2 ^ 128) (hs2 : e2.size < 2 ^ 64)
    (ht3 : e3.time < 2 ^ 128) (hs3 : e3.size < 2 ^ 64)
    (hk12 : e1.key ≠ e2.key)
    (hk31 : e3.key = e1.key) (hi3 : e3.integrity = none)
    (s2 : String) (i2 : Integrity) (hi2 : e2.integrity = some s2)
    (hp2 : parseIntegrity s2 = some i2) :
    lsBucket (((encodeLine e1 ++ encodeLine e2) ++ encodeLine e3)).data
      = Except.ok [⟨e2.key, i2, e2.time, e2.size, e2.metadata⟩] := by
  have hk21 : ¬ (e2.key = e1.key) := fun hh => hk12 hh.symm
  unfold lsBucket
  rw [String.data_append, String.data_append,
      decodeBucket_append_line _ e3 ht3 hs3, decodeBucket_append_line _ e2 ht2 hs2,
      decodeBucket_encodeLine e1 ht1 hs1]
  simp [mapInsert, hk12, hk21, hk31, hi2, hi3, hp2, exceptBind_ok, exceptPure_eq,
    List.mapM, List.mapM.loop]

/-! ## `find` after `insert`, and the key invariant of the `find` fold -/

theorem insert_snd (fs : FS) (cache key : String) (opts : PutOpts) (nowMs : Nat) :
    (insert fs cache key opts nowMs).2
      = appendFile fs (bucket_path cache key)
          (encodeLine (mkEntry key opts nowMs)) := rfl

theorem mkEntry_integrity (key : String) (opts : PutOpts) (nowMs : Nat)
    (i : Integrity) (h : opts.sri = some i) :
    (mkEntry key opts nowMs).integrity = some (Integrity.toStr i) := by
  simp [mkEntry, h]

theorem find_insert_same (fs : FS) (cache key : String) (opts : PutOpts)
    (nowMs : Nat) (i : Integrity) (hsri : opts.sri = some i)
    (hv : validSri i.text = true) (ht : opts.time.getD nowMs < 2 ^ 128)
    (hs : opts.size.getD 0 < 2 ^ 64) :
    find (insert fs cache key opts nowMs).2 cache key
      = some ⟨key, i, opts.time.getD nowMs, opts.size.getD 0,
          opts.metadata.getD .null⟩ := by
  rw [insert_snd, find_append_step fs cache key _ ht hs]
  unfold findStep
  rw [mkEntry_integrity key opts nowMs i hsri]
  simp [mkEntry, parseIntegrity_toStr i hv]

theorem foldl_findStep_key (key : String) (l : List SerializableEntry) :
    ∀ acc : Option Entry, (∀ e : Entry, acc = some e → e.key = key) →
      ∀ e : Entry, l.foldl (findStep key) acc = some e → e.key = key := by
  induction l with
  | nil => exact fun acc h e he => h e he
  | cons x xs ih =>
    intro acc h e he
    rw [List.foldl_cons] at he
    refine ih (findStep key acc x) ?_ e he
    intro e' he'
    unfold findStep at he'
    split at he'
    case isTrue hkx =>
      split at he'
      case h_1 s hint =>
        split at he'
        case h_1 sri hps =>
          rw [← Option.some.inj he']
          exact eq_of_beq hkx
        case h_2 hps => exact h e' he'
      case h_2 hint => exact Option.noConfusion he'
    case isFalse hkx => exact h e' he'

/-! ## The claims -/

/-- C1 (amended): appending a record for `key` whose integrity string
fails to parse leaves the result of `find` unchanged — the fold keeps the
previously computed accumulator (`_ => return acc` in `src/index.rs`); it
does not force "not found". -/
theorem find_retains_on_unparseable_integrity (fs : FS) (cache key : String)
    (e : SerializableEntry) (ht : e.time < 2 ^ 128) (hs : e.size < 2 ^ 64)
    (hk : e.key = key) (s : String) (hi : e.integrity = some s)
    (hp : parseIntegrity s = none) :
    find (appendFile fs (bucket_path cache key) (encodeLine e)) cache key
      = find fs cache key := by
  rw [find_append_step fs cache key e ht hs]
  unfold findStep
  simp [hk, hi, hp]

/-- C1 witness: the amended statement at the concrete bucket `fsC10` and
the unparseable-integrity record `ceSE2`. -/
theorem find_retains_on_unparseable_integrity_witness :
    ceSE2.key = "hello" ∧ ceSE2.integrity = some "garbage"
      ∧ parseIntegrity "garbage" = none
      ∧ find (appendFile fsC10 (bucket_path "cache" "hello") (encodeLine ceSE2))
          "cache" "hello"
        = find fsC10 "cache" "hello" :=
  ⟨rfl, rfl, rfl,
    find_retains_on_unparseable_integrity fsC10 "cache" "hello" ceSE2
      (by decide) (by decide) rfl "garbage" rfl rfl⟩

/-- C1 counterexample: the records of the `fsC1` bucket for `"hello"` end
with an unparseable-integrity record, yet `find` returns the `Entry` built
from the earlier record rather than `none`. -/
theorem find_unparseable_keeps_earlier_entry :
    find fsC1 "cache" "hello" = some ceEntry1 := by rfl

/-- C2 (amended): when the surviving record of a bucket is a non-tombstone
whose integrity string fails to parse, `ls` does not omit it — building
its `Entry` panics (`integrity.unwrap().parse().unwrap()` at line 131 of
`src/index.rs`), modelled as `Except.error ()` aborting the listing. -/
theorem ls_panics_on_unparseable_integrity (cache key : String)
    (e : SerializableEntry) (ht : e.time < 2 ^ 128) (hs : e.size < 2 ^ 64)
    (s : String) (hi : e.integrity = some s) (hp : parseIntegrity s = none) :
    ls [(bucket_path cache key, encodeLine e)] cache = Except.error () := by
  rw [ls_files _ cache (fun kv hkv => by
    obtain rfl := List.mem_singleton.mp hkv
    exact indexDir_prefix_bucket cache key)]
  simp only [List.mapM, List.mapM.loop,
    lsBucket_single_error e ht hs s hi hp, exceptBind_error, exceptMap_error]

/-- C2 witness: the amended statement at the record `ceSE2`. -/
theorem ls_panics_on_unparseable_integrity_witness :
    ceSE2.integrity = some "garbage" ∧ parseIntegrity "garbage" = none
      ∧ ls [(bucket_path "cache" "hello", encodeLine ceSE2)] "cache"
          = Except.error () :=
  ⟨rfl, rfl,
    ls_panics_on_unparseable_integrity "cache" "hello" ceSE2 (by decide)
      (by decide) "garbage" rfl rfl⟩

/-- C2 counterexample: `fsC2`'s surviving record for `"hello"` is a
non-tombstone with the unparseable integrity string `"garbage"`; `ls`
yields an aborting error, not a silent omission of that record. -/
theorem ls_unparseable_aborts :
    ls fsC2 "cache" = Except.error () := by rfl

/-- C3: round trip — `insert` then `find` on the same key returns the
freshly written entry, with `time` defaulted to the wall clock, `size` to
`0` and `metadata` to `null` when not supplied. -/
theorem insert_find_roundtrip (fs : FS) (cache key : String) (opts : PutOpts)
    (nowMs : Nat) (i : Integrity) (hsri : opts.sri = some i)
    (hv : validSri i.text = true) (ht : opts.time.getD nowMs < 2 ^ 128)
    (hs : opts.size.getD 0 < 2 ^ 64) :
    find (insert fs cache key opts nowMs).2 cache key
      = some ⟨key, i, opts.time.getD nowMs, opts.size.getD 0,
          opts.metadata.getD .null⟩ :=
  find_insert_same fs cache key opts nowMs i hsri hv ht hs

/-- C3 witness: the round trip at a concrete key and option set. -/
theorem insert_find_roundtrip_witness :
    (⟨none, none, some ⟨"sha1-deadbeef"⟩, some 1234567, none, none, none⟩ :
        PutOpts).sri = some ⟨"sha1-deadbeef"⟩
    ∧ validSri "sha1-deadbeef" = true
    ∧ find (insert ([] : FS) "cache" "hello"
          ⟨none, none, some ⟨"sha1-deadbeef"⟩, some 1234567, none, none, none⟩
          0).2 "cache" "hello"
        = some ⟨"hello", ⟨"sha1-deadbeef"⟩, 1234567, 0, .null⟩ :=
  ⟨rfl, rfl,
    insert_find_roundtrip [] "cache" "hello"
      ⟨none, none, some ⟨"sha1-deadbeef"⟩, some 1234567, none, none, none⟩
      0 ⟨"sha1-deadbeef"⟩ rfl rfl (by decide) (by decide)⟩

/-- C4: last-write-wins — two `insert`s on the same key followed by `find`
return the second insert's values. -/
theorem insert_insert_find_last_write (fs : FS) (cache key : String)
    (A B : PutOpts) (n1 n2 : Nat) (iA iB : Integrity)
    (hA : A.sri = some iA) (hvA : validSri iA.text = true)
    (hB : B.sri = some iB) (hvB : validSri iB.text = true)
    (htB : B.time.getD n2 < 2 ^ 128) (hsB : B.size.getD 0 < 2 ^ 64) :
    find (insert (insert fs cache key A n1).2 cache key B n2).2 cache key
      = some ⟨key, iB, B.time.getD n2, B.size.getD 0,
          B.metadata.getD .null⟩ :=
  find_insert_same _ cache key B n2 iB hB hvB htB hsB

/-- C4 witness: two concrete inserts for `"hello"`; `find` returns the
second one's integrity, time and size, not the first one's. -/
theorem insert_insert_find_last_write_witness :
    (⟨none, some 7, some ⟨"sha512-cafe"⟩, some 2, none, none, none⟩ :
        PutOpts).sri = some ⟨"sha512-cafe"⟩
    ∧ validSri "sha512-cafe" = true
    ∧ find (insert (insert ([] : FS) "cache" "hello"
            ⟨none, none, some ⟨"sha1-deadbeef"⟩, some 1, none, none, none⟩ 1).2
          "cache" "hello"
          ⟨none, some 7, some ⟨"sha512-cafe"⟩, some 2, none, none, none⟩ 2).2
        "cache" "hello"
        = some ⟨"hello", ⟨"sha512-cafe"⟩, 2, 7, .null⟩ :=
  ⟨rfl, rfl,
    insert_insert_find_last_write [] "cache" "hello"
      ⟨none, none, some ⟨"sha1-deadbeef"⟩, some 1, none, none, none⟩
      ⟨none, some 7, some ⟨"sha512-cafe"⟩, some 2, none, none, none⟩
      1 2 ⟨"sha1-deadbeef"⟩ ⟨"sha512-cafe"⟩ rfl rfl rfl rfl
      (by decide) (by decide)⟩

/-- C5: tombstone deletion — `delete` equals `insert` with every optional
field empty; it appends one tombstone record to the key's bucket, leaves
every other file untouched, and a subsequent `find` returns `none`. -/
theorem delete_tombstone_semantics (fs : FS) (cache key : String)
    (nowMs : Nat) (hn : nowMs < 2 ^ 128) :
    delete fs cache key nowMs = (insert fs cache key emptyOpts nowMs).2
    ∧ bucket_entries (delete fs cache key nowMs) (bucket_path cache key)
        = bucket_entries fs (bucket_path cache key)
            ++ [⟨key, none, nowMs, 0, .null⟩]
    ∧ (∀ q, q ≠ bucket_path cache key →
        readFile (delete fs cache key nowMs) q = readFile fs q)
    ∧ find (delete fs cache key nowMs) cache key = none := by
  have h2 : delete fs cache key nowMs
      = appendFile fs (bucket_path cache key)
          (encodeLine (⟨key, none, nowMs, 0, .null⟩ : SerializableEntry)) := rfl
  refine ⟨rfl, ?_, ?_, ?_⟩
  · rw [h2]
    exact bucket_entries_appendFile fs _ _ hn (show (0:Nat) < 2 ^ 64 by decide)
  · intro q hq
    rw [h2]
    exact readFile_appendFile_other fs _ q _ hq
  · rw [h2, find_append_step fs cache key ⟨key, none, nowMs, 0, .null⟩ hn
      (show (0:Nat) < 2 ^ 64 by decide)]
    simp [findStep]

/-- C5 witness: deleting `"hello"` from the concrete bucket `fsC10` makes
`find` return `none`. -/
theorem delete_tombstone_semantics_witness :
    99 < 2 ^ 128
      ∧ find (delete fsC10 "cache" "hello" 99) "cache" "hello" = none :=
  ⟨by decide,
    (delete_tombstone_semantics fsC10 "cache" "hello" 99 (by decide)).2.2.2⟩

/-- C6: listing dedup and filtering — after inserting `k1` and `k2` and
deleting `k1` on an empty cache, `ls` yields exactly `k2`'s entry: within
a bucket the surviving record per key is the last in file order, and
surviving tombstones are filtered out. -/
theorem ls_insert_insert_delete (cache k1 k2 : String) (A B : PutOpts)
    (n1 n2 n3 : Nat) (iA iB : Integrity)
    (hA : A.sri = some iA) (hvA : validSri iA.text = true)
    (hB : B.sri = some iB) (hvB : validSri iB.text = true)
    (hk : k1 ≠ k2)
    (htA : A.time.getD n1 < 2 ^ 128) (hsA : A.size.getD 0 < 2 ^ 64)
    (htB : B.time.getD n2 < 2 ^ 128) (hsB : B.size.getD 0 < 2 ^ 64)
    (hn3 : n3 < 2 ^ 128) :
    ls (delete (insert (insert ([] : FS) cache k1 A n1).2 cache k2 B n2).2
        cache k1 n3) cache
      = Except.ok [⟨k2, iB, B.time.getD n2, B.size.getD 0,
          B.metadata.getD .null⟩] := by
  have h3 : delete (insert (insert ([] : FS) cache k1 A n1).2 cache k2 B n2).2
        cache k1 n3
      = appendFile
          (appendFile
            (appendFile [] (bucket_path cache k1)
              (encodeLine (mkEntry k1 A n1)))
            (bucket_path cache k2) (encodeLine (mkEntry k2 B n2)))
          (bucket_path cache k1) (encodeLine (mkEntry k1 emptyOpts n3)) := rfl
  rw [h3, appendFile_nil]
  by_cases hb : bucket_path cache k2 = bucket_path cache k1
  · rw [hb, appendFile_single_same, appendFile_single_same]
    rw [ls_files _ cache (fun kv hkv => by
      obtain rfl := List.mem_singleton.mp hkv
      exact indexDir_prefix_bucket cache k1)]
    have hthree := lsBucket_three (mkEntry k1 A n1) (mkEntry k2 B n2)
      (mkEntry k1 emptyOpts n3) htA hsA htB hsB hn3
      (show (0:Nat) < 2 ^ 64 by decide) hk rfl rfl
      (Integrity.toStr iB) iB (mkEntry_integrity k2 B n2 iB hB)
      (parseIntegrity_toStr iB hvB)
    simp only [List.mapM, List.mapM.loop, hthree, exceptBind_ok]
    rfl
  · rw [appendFile_single_other _ _ _ _ hb, appendFile_pair_first _ _ _ _ _ hb]
    rw [ls_files _ cache (fun kv hkv => by
      rcases List.mem_cons.mp hkv with rfl | hkv2
      · exact indexDir_prefix_bucket cache k1
      · obtain rfl := List.mem_singleton.mp hkv2
        exact indexDir_prefix_bucket cache k2)]
    have hpair := lsBucket_pair_tomb (mkEntry k1 A n1) (mkEntry k1 emptyOpts n3)
      htA hsA hn3 (show (0:Nat) < 2 ^ 64 by decide) rfl rfl
    have hone := lsBucket_single_ok (mkEntry k2 B n2) htB hsB
      (Integrity.toStr iB) iB (mkEntry_integrity k2 B n2 iB hB)
      (parseIntegrity_toStr iB hvB)
    simp only [List.mapM, List.mapM.loop, hpair, hone, exceptBind_ok]
    rfl

/-- C6 witness: the listing after two concrete inserts and a delete. -/
theorem ls_insert_insert_delete_witness :
    ("hello" : String) ≠ "world"
      ∧ validSri "sha1-deadbeef" = true
      ∧ ls (delete (insert (insert ([] : FS) "cache" "hello"
            ⟨none, none, some ⟨"sha1-deadbeef"⟩, some 1, none, none, none⟩ 1).2
            "cache" "world"
            ⟨none, none, some ⟨"sha1-deadbeef"⟩, some 1234567, none, none,
              none⟩ 2).2
          "cache" "hello" 3) "cache"
        = Except.ok [⟨"world", ⟨"sha1-deadbeef"⟩, 1234567, 0, .null⟩] :=
  ⟨by decide, rfl,
    ls_insert_insert_delete "cache" "hello" "world"
      ⟨none, none, some ⟨"sha1-deadbeef"⟩, some 1, none, none, none⟩
      ⟨none, none, some ⟨"sha1-deadbeef"⟩, some 1234567, none, none, none⟩
      1 2 3 ⟨"sha1-deadbeef"⟩ ⟨"sha1-deadbeef"⟩ rfl rfl rfl rfl (by decide)
      (by decide) (by decide) (by decide) (by decide) (by decide)⟩

/-- C7: corruption tolerance of the bucket reader — `bucket_entries`
returns exactly the records of the decodable lines in file order (a line
decodes when it is non-empty, splits on tab into two fields, its checksum
equals the hash of the payload and the payload deserializes), and a
missing bucket file yields the empty record list instead of an error. -/
theorem bucket_entries_corruption_tolerant :
    (∀ (fs : FS) (bucket : String),
      bucket_entries fs bucket
        = (splitOnChar '\n' (readFileD fs bucket).data).filterMap decodeLineSpec)
    ∧ (∀ (fs : FS) (bucket : String), readFile fs bucket = none →
        bucket_entries fs bucket = []) := by
  constructor
  · intro fs bucket
    unfold bucket_entries
    rw [decodeBucket_eq_spec]
    rfl
  · intro fs bucket h
    unfold bucket_entries readFileD
    rw [h]
    rfl

/-- C7 witness: the refinement at the concrete bucket `fsC1`, and the
missing-file case on the empty filesystem. -/
theorem bucket_entries_corruption_tolerant_witness :
    readFile ([] : FS) "cache/index-v5/aa/bb/cc" = none
      ∧ bucket_entries ([] : FS) "cache/index-v5/aa/bb/cc" = []
      ∧ bucket_entries fsC1 (bucket_path "cache" "hello")
          = (splitOnChar '\n'
              (readFileD fsC1 (bucket_path "cache" "hello")).data).filterMap
              decodeLineSpec :=
  ⟨rfl, bucket_entries_corruption_tolerant.2 [] _ rfl,
    bucket_entries_corruption_tolerant.1 fsC1 _⟩

/-- C8: exact on-disk record format — inserting `"hello"` with integrity
`"sha1-deadbeef"` and time `1234567` into an empty cache writes, as the
bucket file's entire content, a leading newline, the 64-hex-character
SHA-256 checksum of the JSON payload, a tab, and the payload itself. -/
theorem insert_exact_bucket_content :
    readFile
      (insert ([] : FS) "cache" "hello"
        ⟨none, none, some ⟨"sha1-deadbeef"⟩, some 1234567, none, none, none⟩
        0).2
      (bucket_path "cache" "hello")
      = some "\n251d18a2b33264ea8655695fd23c88bd874cdea2c3dc9d8f9b7596717ad30fec\t\x7b\"key\":\"hello\",\"integrity\":\"sha1-deadbeef\",\"time\":1234567,\"size\":0,\"metadata\":null\x7d" := by
  rfl

/-- C9: `insert` returns the integrity handle that was written — the
input handle when one was supplied, and the `"sha1-deadbeef"` placeholder
(rather than a failure) when none was. -/
theorem insert_returns_written_handle (fs : FS) (cache key : String)
    (opts : PutOpts) (nowMs : Nat) :
    (∀ i : Integrity, opts.sri = some i →
        (insert fs cache key opts nowMs).1 = i)
    ∧ (opts.sri = none →
        (insert fs cache key opts nowMs).1 = placeholderIntegrity)
    ∧ placeholderIntegrity = ⟨"sha1-deadbeef"⟩ := by
  refine ⟨?_, ?_, rfl⟩
  · intro i hi
    show opts.sri.getD placeholderIntegrity = i
    rw [hi]
    rfl
  · intro hn
    show opts.sri.getD placeholderIntegrity = placeholderIntegrity
    rw [hn]
    rfl

/-- C9 witness: the returned handle echoes a supplied integrity, and an
`insert` without one returns the placeholder. -/
theorem insert_returns_written_handle_witness :
    (⟨none, none, some ⟨"sha1-deadbeef"⟩, some 1234567, none, none, none⟩ :
        PutOpts).sri = some ⟨"sha1-deadbeef"⟩
    ∧ (insert ([] : FS) "cache" "hello"
        ⟨none, none, some ⟨"sha1-deadbeef"⟩, some 1234567, none, none, none⟩
        0).1 = ⟨"sha1-deadbeef"⟩
    ∧ emptyOpts.sri = none
    ∧ (insert ([] : FS) "cache" "hello" emptyOpts 0).1 = placeholderIntegrity :=
  ⟨rfl,
    (insert_returns_written_handle [] "cache" "hello"
      ⟨none, none, some ⟨"sha1-deadbeef"⟩, some 1234567, none, none, none⟩
      0).1 ⟨"sha1-deadbeef"⟩ rfl,
    rfl,
    (insert_returns_written_handle [] "cache" "hello" emptyOpts 0).2.1 rfl⟩

/-- C10 (implicit): whenever `find` returns an entry, the entry's key
equals the queried key — records whose key field differs from the query
never influence the fold's result. -/
theorem find_entry_key_matches (fs : FS) (cache key : String) (e : Entry)
    (h : find fs cache key = some e) : e.key = key := by
  unfold find at h
  exact foldl_findStep_key key (bucket_entries fs (bucket_path cache key)) none
    (fun e' he' => Option.noConfusion he') e h

/-- C10 witness: a successful `find` on the concrete bucket `fsC10`, whose
returned entry carries the queried key. -/
theorem find_entry_key_matches_witness :
    find fsC10 "cache" "hello" = some ceEntry1 ∧ ceEntry1.key = "hello" :=
  ⟨by rfl, find_entry_key_matches fsC10 "cache" "hello" ceEntry1 (by rfl)⟩

end Cacache
